import Mathlib

/-!
Shallow embedding of the mdBook core subsystems (document tree loader,
depth-first iterator, link resolver, curly-quote converter, and the static
asset content-addressing pipeline) together with theorems settling the
frozen claims about them.

Sources embedded: `src/book/book.rs`, `src/utils/mod.rs`,
`src/renderer/html_handlebars/static_files.rs`.
-/

namespace MdBook

/-! ## Document tree model (`src/book/book.rs`) -/

/-- `SectionNumber` from the summary model: an ordered sequence of part
numbers such as `[1, 2]` for section "1.2". -/
abbrev SectionNumber := List Nat

/-- `SummaryItem` with the fields of `Link` flattened into the `link`
constructor: `{name, location, number, nested_items}`. -/
inductive SummaryItem where
  | separator : SummaryItem
  | link (name : String) (location : String) (number : Option SectionNumber)
      (nested_items : List SummaryItem) : SummaryItem
deriving Repr

/-- `Summary`: three fixed chapter sections, concatenated in
prefix/numbered/suffix order by the loader. -/
structure Summary where
  prefix_chapters : List SummaryItem
  numbered_chapters : List SummaryItem
  suffix_chapters : List SummaryItem
deriving Repr

/-- `BookItem` with the fields of `Chapter` flattened into the `chapter`
constructor: `{name, content, number, sub_items}`. -/
inductive BookItem where
  | separator : BookItem
  | chapter (name : String) (content : String) (number : Option SectionNumber)
      (sub_items : List BookItem) : BookItem
deriving Repr

mutual

/-- Structural equality test for `BookItem`. -/
def beqItem : BookItem → BookItem → Bool
  | .separator, .separator => true
  | .chapter n c num s, .chapter n' c' num' s' =>
    n == n' && c == c' && num == num' && beqItems s s'
  | .separator, .chapter _ _ _ _ => false
  | .chapter _ _ _ _, .separator => false

/-- Structural equality test for lists of `BookItem`. -/
def beqItems : List BookItem → List BookItem → Bool
  | [], [] => true
  | a :: as, b :: bs => beqItem a b && beqItems as bs
  | [], _ :: _ => false
  | _ :: _, [] => false

end

mutual

theorem beqItem_eq : ∀ a b : BookItem, beqItem a b = true → a = b
  | .separator, .separator, _ => rfl
  | .chapter n c num s, .chapter n' c' num' s', h => by
    simp only [beqItem, Bool.and_eq_true, beq_iff_eq] at h
    obtain ⟨⟨⟨h1, h2⟩, h3⟩, h4⟩ := h
    rw [h1, h2, h3, beqItems_eq s s' h4]

theorem beqItems_eq : ∀ as bs : List BookItem, beqItems as bs = true → as = bs
  | [], [], _ => rfl
  | a :: as, b :: bs, h => by
    simp only [beqItems, Bool.and_eq_true] at h
    rw [beqItem_eq a b h.1, beqItems_eq as bs h.2]

end

mutual

theorem beqItem_rfl : ∀ a : BookItem, beqItem a a = true
  | .separator => rfl
  | .chapter n c num s => by
    simp [beqItem, beqItems_rfl s]

theorem beqItems_rfl : ∀ as : List BookItem, beqItems as as = true
  | [] => rfl
  | a :: as => by
    simp only [beqItems, Bool.and_eq_true]
    exact ⟨beqItem_rfl a, beqItems_rfl as⟩

end

instance : DecidableEq BookItem := fun a b =>
  if h : beqItem a b = true then isTrue (beqItem_eq a b h)
  else isFalse (fun he => h (he ▸ beqItem_rfl a))

instance {ε α : Type} [DecidableEq ε] [DecidableEq α] :
    DecidableEq (Except ε α) := fun a b =>
  match a, b with
  | .ok x, .ok y =>
    match decEq x y with
    | isTrue h => isTrue (by rw [h])
    | isFalse h => isFalse (by intro he; cases he; exact h rfl)
  | .error x, .error y =>
    match decEq x y with
    | isTrue h => isTrue (by rw [h])
    | isFalse h => isFalse (by intro he; cases he; exact h rfl)
  | .ok _, .error _ => isFalse (by intro h; cases h)
  | .error _, .ok _ => isFalse (by intro h; cases h)

/-- `Book`: the root of the loaded tree. -/
structure Book where
  sections : List BookItem
deriving Repr, DecidableEq

/-- Result of opening and fully reading one file: the file may be absent
(`File::open` fails), may fail mid-read (`read_to_string` fails), or may
yield its full contents. -/
inductive FileResult where
  | absent : FileResult
  | readFailure : FileResult
  | contents (s : String) : FileResult
deriving Repr, DecidableEq

/-- The file system seen by the loader, as a map from resolved path to the
outcome of reading that path. -/
abbrev FileSystem := String → FileResult

/-- The two fatal loader error conditions: `Chapter file not found, <logical
path>` (any `File::open` failure) and a plain I/O failure (read errors). -/
inductive LoadError where
  | chapterNotFound (location : String) : LoadError
  | ioFailure : LoadError
deriving Repr, DecidableEq

/-- `Path::is_absolute` for the unix-style paths of the embedding: the path
starts with the separator `/`. -/
def is_absolute (p : String) : Bool :=
  match p.data with
  | '/' :: _ => true
  | _ => false

/-- `Path::join` for the unix-style paths of the embedding. -/
def joinPath (dir p : String) : String := if dir = "" then p else dir ++ "/" ++ p

mutual

/-- `load_summary_item` (book.rs lines 105-110) with `load_chapter`
(lines 112-140) inlined into the `link` arm: resolve the location against
`src_dir` unless absolute, open and read the file (`File::open` failure is
reported as `chapterNotFound` carrying the logical `link.location`, a read
failure as `ioFailure`), then recursively load `nested_items` with the same
`src_dir`. -/
def load_summary_item (fs : FileSystem) (src_dir : String) :
    SummaryItem → Except LoadError BookItem
  | .separator => .ok .separator
  | .link name location number nested_items =>
    let loc := if is_absolute location then location else joinPath src_dir location
    match fs loc with
    | .absent => .error (.chapterNotFound location)
    | .readFailure => .error .ioFailure
    | .contents content =>
      match load_items fs src_dir nested_items with
      | .error e => .error e
      | .ok sub_items => .ok (.chapter name content number sub_items)

/-- Sequencing of `load_summary_item` over a list, stopping at the first
error, as `collect::<Result<_>>()` does. -/
def load_items (fs : FileSystem) (src_dir : String) :
    List SummaryItem → Except LoadError (List BookItem)
  | [] => .ok []
  | i :: rest =>
    match load_summary_item fs src_dir i with
    | .error e => .error e
    | .ok b =>
      match load_items fs src_dir rest with
      | .error e => .error e
      | .ok bs => .ok (b :: bs)

end

/-- `load_chapter` (book.rs lines 112-140): loading one link is loading the
corresponding link summary item. -/
def load_chapter (fs : FileSystem) (src_dir : String) (name location : String)
    (number : Option SectionNumber) (nested_items : List SummaryItem) :
    Except LoadError BookItem :=
  load_summary_item fs src_dir (.link name location number nested_items)

/-- `load_book_from_disk` (book.rs lines 87-103): chain the prefix, numbered
and suffix sections in that order and load each item. -/
def load_book_from_disk (fs : FileSystem) (summary : Summary) (src_dir : String) :
    Except LoadError Book :=
  match load_items fs src_dir
      (summary.prefix_chapters ++ summary.numbered_chapters ++ summary.suffix_chapters) with
  | .error e => .error e
  | .ok chapters => .ok ⟨chapters⟩

mutual

/-- Structural correspondence between a summary item and a loaded book item:
separators map to separators; a link maps to a chapter with the same name,
the same `number` (so `None` exactly when the link was unnumbered), and
`sub_items` corresponding recursively to `nested_items` (content is checked
separately, against the file system). -/
def corrItem : SummaryItem → BookItem → Bool
  | .separator, .separator => true
  | .link name _ number nested_items, .chapter name' _ number' sub_items =>
    name' == name && number' == number && corrItems nested_items sub_items
  | .separator, .chapter _ _ _ _ => false
  | .link _ _ _ _, .separator => false

/-- Pointwise correspondence of an item list, preserving order and length. -/
def corrItems : List SummaryItem → List BookItem → Bool
  | [], [] => true
  | i :: is, b :: bs => corrItem i b && corrItems is bs
  | [], _ :: _ => false
  | _ :: _, [] => false

end

mutual

theorem load_summary_item_corr (fs : FileSystem) (src_dir : String)
    (i : SummaryItem) (b : BookItem)
    (h : load_summary_item fs src_dir i = .ok b) : corrItem i b = true := by
  cases i with
  | separator =>
    simp only [load_summary_item] at h
    cases h
    rfl
  | link name location number nested_items =>
    simp only [load_summary_item] at h
    cases hf : fs (if is_absolute location then location else joinPath src_dir location) with
    | absent => rw [hf] at h; cases h
    | readFailure => rw [hf] at h; cases h
    | contents content =>
      rw [hf] at h
      cases hl : load_items fs src_dir nested_items with
      | error e => rw [hl] at h; cases h
      | ok subs =>
        rw [hl] at h
        cases h
        simp [corrItem, load_items_corr fs src_dir nested_items subs hl]

theorem load_items_corr (fs : FileSystem) (src_dir : String)
    (l : List SummaryItem) (bs : List BookItem)
    (h : load_items fs src_dir l = .ok bs) : corrItems l bs = true := by
  cases l with
  | nil =>
    simp only [load_items] at h
    cases h
    rfl
  | cons i rest =>
    simp only [load_items] at h
    cases hi : load_summary_item fs src_dir i with
    | error e => rw [hi] at h; cases h
    | ok b =>
      rw [hi] at h
      cases hr : load_items fs src_dir rest with
      | error e => rw [hr] at h; cases h
      | ok brest =>
        rw [hr] at h
        cases h
        simp only [corrItems, Bool.and_eq_true]
        exact ⟨load_summary_item_corr fs src_dir i b hi,
               load_items_corr fs src_dir rest brest hr⟩

end

/-- C1: for every summary that loads successfully, the resulting book's
top-level sections correspond pointwise to the summary's prefix, numbered
and suffix items concatenated in that order: each `Separator` maps to
`BookItem::Separator`, each loaded chapter preserves the nesting and
ordering of the originating `Link.nested_items` in its `sub_items`, and each
chapter's `number` equals the link's `number` (`none` exactly when the link
was unnumbered). -/
theorem loaded_book_matches_summary (fs : FileSystem) (summary : Summary)
    (src_dir : String) (book : Book)
    (h : load_book_from_disk fs summary src_dir = .ok book) :
    corrItems (summary.prefix_chapters ++ summary.numbered_chapters ++
      summary.suffix_chapters) book.sections = true := by
  unfold load_book_from_disk at h
  cases hl : load_items fs src_dir (summary.prefix_chapters ++
      summary.numbered_chapters ++ summary.suffix_chapters) with
  | error e => rw [hl] at h; cases h
  | ok chapters =>
    rw [hl] at h
    cases h
    exact load_items_corr fs src_dir _ chapters hl

/-- A small concrete file system for the loader witnesses. -/
def demoFS : FileSystem := fun p =>
  if p = "src/intro.md" then .contents "# Intro" else
  if p = "src/one.md" then .contents "one" else
  if p = "src/two.md" then .contents "two" else .absent

/-- A small concrete summary with prefix, numbered (nested) and suffix
sections. -/
def demoSummary : Summary :=
  { prefix_chapters := [.link "Intro" "intro.md" none []]
    numbered_chapters := [.link "One" "one.md" (some [1])
      [.separator, .link "Two" "two.md" (some [1, 1]) []]]
    suffix_chapters := [.separator] }

/-- The book `demoSummary` loads to from `demoFS`. -/
def demoBook : Book :=
  ⟨[.chapter "Intro" "# Intro" none [],
    .chapter "One" "one" (some [1])
      [.separator, .chapter "Two" "two" (some [1, 1]) []],
    .separator]⟩

/-- Witness for C1: the demo summary loads successfully and the loaded book
corresponds to the concatenated summary items. -/
theorem loaded_book_matches_summary_witness :
    load_book_from_disk demoFS demoSummary "src" = .ok demoBook ∧
    corrItems (demoSummary.prefix_chapters ++ demoSummary.numbered_chapters ++
      demoSummary.suffix_chapters) demoBook.sections = true :=
  ⟨by decide, loaded_book_matches_summary demoFS demoSummary "src" demoBook (by decide)⟩

/-! ## C5: error taxonomy of `load_chapter` -/

/-- File system for the C5 counterexample and witness: `a.md` exists,
everything else is missing. -/
def c5fs : FileSystem := fun p => if p = "a.md" then .contents "alpha" else .absent

/-- C5 counterexample: the claim says "loading a link whose file exists
succeeds", but a link whose own file exists fails whenever a nested link's
file is missing: here `a.md` exists, yet loading returns the nested item's
`chapterNotFound` error instead of succeeding. -/
theorem load_chapter_exists_can_fail :
    load_chapter c5fs "" "A" "a.md" none [.link "B" "missing.md" none []] =
      .error (.chapterNotFound "missing.md") := by decide

/-- C5 amended: a missing file fails with `chapterNotFound` carrying the
offending logical path, any other read error fails with `ioFailure`, and a
link whose file exists and whose nested items all load successfully yields a
chapter whose `content` is exactly the file's contents — in particular a
link with no nested items always succeeds when its file is readable. -/
theorem load_chapter_error_taxonomy (fs : FileSystem) (src_dir : String)
    (name location : String) (number : Option SectionNumber)
    (nested_items : List SummaryItem) :
    (fs (if is_absolute location then location else joinPath src_dir location) =
        .absent →
      load_chapter fs src_dir name location number nested_items =
        .error (.chapterNotFound location)) ∧
    (fs (if is_absolute location then location else joinPath src_dir location) =
        .readFailure →
      load_chapter fs src_dir name location number nested_items =
        .error .ioFailure) ∧
    (∀ content sub_items,
      fs (if is_absolute location then location else joinPath src_dir location) =
        .contents content →
      load_items fs src_dir nested_items = .ok sub_items →
      load_chapter fs src_dir name location number nested_items =
        .ok (.chapter name content number sub_items)) ∧
    (∀ content,
      fs (if is_absolute location then location else joinPath src_dir location) =
        .contents content →
      load_chapter fs src_dir name location number [] =
        .ok (.chapter name content number [])) := by
  refine ⟨?_, ?_, ?_, ?_⟩
  · intro hf
    simp only [load_chapter, load_summary_item, hf]
  · intro hf
    simp only [load_chapter, load_summary_item, hf]
  · intro content sub_items hf hn
    simp only [load_chapter, load_summary_item, hf, hn]
  · intro content hf
    simp only [load_chapter, load_summary_item, hf, load_items]

/-- Witness for the amended C5: on `c5fs`, a leaf link backed by `a.md`
loads successfully with exactly the file's contents, and a missing path
yields `chapterNotFound` with the logical path. -/
theorem load_chapter_error_taxonomy_witness :
    load_chapter c5fs "" "A" "a.md" none [] = .ok (.chapter "A" "alpha" none []) ∧
    load_chapter c5fs "" "B" "gone.md" none [] =
      .error (.chapterNotFound "gone.md") :=
  ⟨(load_chapter_error_taxonomy c5fs "" "A" "a.md" none []).2.2.2 "alpha" (by decide),
   (load_chapter_error_taxonomy c5fs "" "B" "gone.md" none []).1 (by decide)⟩

/-! ## C2: the depth-first iterator (`BookItems`) -/

mutual

/-- Pre-order (document order) flattening specification of a tree item: a
chapter is listed before its `sub_items`, and `sub_items` in stored order
before the next sibling. -/
def flattenItem : BookItem → List BookItem
  | .separator => [.separator]
  | .chapter name content number sub_items =>
    .chapter name content number sub_items :: flattenItems sub_items

/-- Pre-order flattening of a sibling list. -/
def flattenItems : List BookItem → List BookItem
  | [] => []
  | b :: bs => flattenItem b ++ flattenItems bs

end

mutual

/-- Number of `BookItem` nodes in a tree item. -/
def sizeItem : BookItem → Nat
  | .separator => 1
  | .chapter _ _ _ sub_items => 1 + sizeItems sub_items

/-- Number of `BookItem` nodes in a sibling list. -/
def sizeItems : List BookItem → Nat
  | [] => 0
  | b :: bs => sizeItem b + sizeItems bs

end

/-- One step of `BookItems::next` (book.rs lines 154-169): pop the front of
the deque and, if the popped item is a chapter, push its `sub_items` onto
the front in reverse order. -/
def book_items_next : List BookItem → Option (BookItem × List BookItem)
  | [] => none
  | .separator :: rest => some (.separator, rest)
  | .chapter name content number sub_items :: rest =>
    some (.chapter name content number sub_items,
      sub_items.reverse.foldl (fun acc x => x :: acc) rest)

theorem rev_foldl_push_front (subs rest : List BookItem) :
    subs.reverse.foldl (fun acc x => x :: acc) rest = subs ++ rest := by
  induction subs generalizing rest with
  | nil => rfl
  | cons x xs ih =>
    simp only [List.reverse_cons, List.foldl_append, List.foldl_cons, List.foldl_nil,
      List.cons_append]
    rw [ih]

theorem sizeItems_append (a b : List BookItem) :
    sizeItems (a ++ b) = sizeItems a + sizeItems b := by
  induction a with
  | nil => simp [sizeItems]
  | cons x xs ih => simp [sizeItems, ih, Nat.add_assoc]

theorem flattenItems_append (a b : List BookItem) :
    flattenItems (a ++ b) = flattenItems a ++ flattenItems b := by
  induction a with
  | nil => rfl
  | cons x xs ih => simp [flattenItems, ih]

theorem sizeItem_pos (b : BookItem) : 1 ≤ sizeItem b := by
  cases b <;> simp [sizeItem]

theorem book_items_next_size {items : List BookItem} {item : BookItem}
    {rest : List BookItem} (h : book_items_next items = some (item, rest)) :
    sizeItems rest < sizeItems items := by
  cases items with
  | nil => cases h
  | cons x xs =>
    cases x with
    | separator =>
      simp only [book_items_next, Option.some.injEq, Prod.mk.injEq] at h
      rw [← h.2]
      simp only [sizeItems, sizeItem]
      omega
    | chapter name content number sub_items =>
      simp only [book_items_next, rev_foldl_push_front, Option.some.injEq,
        Prod.mk.injEq] at h
      rw [← h.2, sizeItems_append]
      simp only [sizeItems, sizeItem]
      omega

/-- The full sequence produced by repeatedly calling `BookItems::next`
starting from a given deque state. -/
def bookIterRun (items : List BookItem) : List BookItem :=
  match h : book_items_next items with
  | none => []
  | some (item, rest) => item :: bookIterRun rest
termination_by sizeItems items
decreasing_by exact book_items_next_size h

/-- `Book::iter` (book.rs lines 43-47): the iterator starts from the
top-level sections; the embedding collects the whole (finite) sequence it
yields, which is a pure function of the book (so a fresh iterator always
retraces the same sequence and the tree is never mutated). -/
def Book.iter (b : Book) : List BookItem := bookIterRun b.sections

theorem bookIterRun_step_none {items : List BookItem}
    (h : book_items_next items = none) : bookIterRun items = [] := by
  rw [bookIterRun]
  split
  · rfl
  · next item rest h' => rw [h'] at h; cases h

theorem bookIterRun_step_some {items : List BookItem} {item : BookItem}
    {rest : List BookItem} (h : book_items_next items = some (item, rest)) :
    bookIterRun items = item :: bookIterRun rest := by
  rw [bookIterRun]
  split
  · next h' => rw [h'] at h; cases h
  · next item' rest' h' =>
    rw [h'] at h
    cases h
    rfl

theorem bookIterRun_eq_flatten_aux :
    ∀ n (items : List BookItem), sizeItems items ≤ n →
      bookIterRun items = flattenItems items := by
  intro n
  induction n with
  | zero =>
    intro items h
    cases items with
    | nil => exact bookIterRun_step_none rfl
    | cons i r =>
      exfalso
      have := sizeItem_pos i
      simp only [sizeItems] at h
      omega
  | succ n ih =>
    intro items h
    cases items with
    | nil => exact bookIterRun_step_none rfl
    | cons item rest =>
      cases item with
      | separator =>
        rw [bookIterRun_step_some (show book_items_next (.separator :: rest) =
          some (.separator, rest) from rfl)]
        simp only [sizeItems, sizeItem] at h
        rw [ih rest (by omega)]
        rfl
      | chapter name content number sub_items =>
        have hstep : book_items_next (.chapter name content number sub_items :: rest) =
            some (.chapter name content number sub_items, sub_items ++ rest) := by
          simp [book_items_next, rev_foldl_push_front]
        rw [bookIterRun_step_some hstep]
        simp only [sizeItems, sizeItem] at h
        rw [ih (sub_items ++ rest) (by rw [sizeItems_append]; omega)]
        simp [flattenItems, flattenItem, flattenItems_append]

theorem bookIterRun_eq_flatten (items : List BookItem) :
    bookIterRun items = flattenItems items :=
  bookIterRun_eq_flatten_aux (sizeItems items) items (Nat.le_refl _)

mutual

theorem flattenItem_length (b : BookItem) :
    (flattenItem b).length = sizeItem b := by
  cases b with
  | separator => rfl
  | chapter name content number sub_items =>
    simp only [flattenItem, sizeItem, List.length_cons]
    rw [flattenItems_length sub_items]
    omega

theorem flattenItems_length (l : List BookItem) :
    (flattenItems l).length = sizeItems l := by
  cases l with
  | nil => rfl
  | cons b bs =>
    simp only [flattenItems, sizeItems, List.length_append]
    rw [flattenItem_length b, flattenItems_length bs]

end

/-- C2: `Book::iter` yields exactly the pre-order (document order)
flattening of the tree — every node once, a chapter before its `sub_items`,
`sub_items` in stored order before the next sibling — and the length of the
yielded sequence is the number of nodes in the tree. The iterator is a pure
function of the book in this embedding, so a fresh iterator retraces the
same finite sequence and iteration does not mutate the tree. -/
theorem book_iter_preorder (book : Book) :
    Book.iter book = flattenItems book.sections ∧
    (Book.iter book).length = sizeItems book.sections := by
  constructor
  · exact bookIterRun_eq_flatten book.sections
  · rw [Book.iter, bookIterRun_eq_flatten book.sections]
    exact flattenItems_length book.sections

/-! ## Markdown events and the curly-quote converter (`src/utils/mod.rs`) -/

/-- The pulldown-cmark tags the renderer inspects: links and images (with a
link type, a destination and a title), fenced code blocks (with an info
string), and everything else abstracted by an index. -/
inductive Tag where
  | link (linkType : Nat) (dest : List Char) (title : List Char) : Tag
  | image (linkType : Nat) (dest : List Char) (title : List Char) : Tag
  | codeBlock (info : List Char) : Tag
  | otherTag (k : Nat) : Tag
deriving Repr, DecidableEq

/-- The pulldown-cmark events the renderer inspects: start/end of a tag,
text, inline code spans, raw HTML, and everything else abstracted by an
index. -/
inductive Event where
  | start (t : Tag) : Event
  | stop (t : Tag) : Event
  | text (s : List Char) : Event
  | code (s : List Char) : Event
  | html (s : List Char) : Event
  | otherEvent (k : Nat) : Event
deriving Repr, DecidableEq

/-- `char::is_whitespace` of Rust: the Unicode `White_Space` property. -/
def isRustWhitespace (c : Char) : Bool :=
  c ∈ ['\t', '\n', '\x0b', '\x0c', '\r', ' ', '\u0085', ' ', ' ',
    ' ', ' ', ' ', ' ', ' ', ' ', ' ',
    ' ', ' ', ' ', ' ', ' ', ' ', ' ',
    ' ', '　']

/-- The per-character conversion of `convert_quotes_to_curly` (utils/mod.rs
lines 366-396): a straight quote becomes the typographic open quote when
`preceded_by_whitespace` holds and the close quote otherwise; every other
character is unchanged. -/
def curlyChar (preceded_by_whitespace : Bool) (c : Char) : Char :=
  match c with
  | '\'' => if preceded_by_whitespace then '‘' else '’'
  | '"' => if preceded_by_whitespace then '“' else '”'
  | _ => c

/-- The character scan of `convert_quotes_to_curly`: the flag carried along
is whether the previous original character was whitespace. -/
def cqAux (preceded_by_whitespace : Bool) : List Char → List Char
  | [] => []
  | c :: rest => curlyChar preceded_by_whitespace c :: cqAux (isRustWhitespace c) rest

/-- `convert_quotes_to_curly` (utils/mod.rs lines 366-396): the start of the
text is considered to be "whitespace". -/
def convert_quotes_to_curly (s : List Char) : List Char := cqAux true s

/-- One step of `EventQuoteConverter::convert` (utils/mod.rs lines 333-352)
together with its state update: disabled leaves everything alone; a code
block start/end toggles `convert_text`; a text event is converted only when
`convert_text` holds; all other events (including inline `code` spans) pass
through unchanged. -/
def qcStep (enabled convert_text : Bool) (e : Event) : Bool × Event :=
  if enabled = false then (convert_text, e)
  else
    match e with
    | .start (.codeBlock info) => (false, .start (.codeBlock info))
    | .stop (.codeBlock info) => (true, .stop (.codeBlock info))
    | .text s =>
      if convert_text then (convert_text, .text (convert_quotes_to_curly s))
      else (convert_text, .text s)
    | e => (convert_text, e)

/-- Mapping a whole event sequence through the stateful converter. -/
def qcRun (enabled convert_text : Bool) : List Event → List Event
  | [] => []
  | e :: rest =>
    (qcStep enabled convert_text e).2 ::
      qcRun enabled (qcStep enabled convert_text e).1 rest

/-- The converter's `convert_text` state after a sequence of events. -/
def qcState (enabled convert_text : Bool) : List Event → Bool
  | [] => convert_text
  | e :: rest => qcState enabled (qcStep enabled convert_text e).1 rest

theorem cqAux_get_zero (q : Bool) {rest : List Char} {c : Char}
    (h : rest[0]? = some c) : (cqAux q rest)[0]? = some (curlyChar q c) := by
  cases rest with
  | nil => cases h
  | cons x xs =>
    simp only [List.getElem?_cons_zero, Option.some.injEq] at h
    subst h
    simp only [cqAux, List.getElem?_cons_zero]

theorem cqAux_get_succ :
    ∀ (s : List Char) (p : Bool) (i : Nat) (pc c : Char),
      s[i]? = some pc → s[i + 1]? = some c →
      (cqAux p s)[i + 1]? = some (curlyChar (isRustWhitespace pc) c) := by
  intro s
  induction s with
  | nil => intro p i pc c h1 _; cases h1
  | cons x rest ih =>
    intro p i pc c h1 h2
    cases i with
    | zero =>
      simp only [List.getElem?_cons_zero, Option.some.injEq] at h1
      subst h1
      simp only [List.getElem?_cons_succ] at h2
      simp only [cqAux, List.getElem?_cons_succ]
      exact cqAux_get_zero _ h2
    | succ i =>
      simp only [List.getElem?_cons_succ] at h1 h2
      simp only [cqAux, List.getElem?_cons_succ]
      exact ih _ i pc c h1 h2

theorem cqAux_length (p : Bool) (s : List Char) :
    (cqAux p s).length = s.length := by
  induction s generalizing p with
  | nil => rfl
  | cons x rest ih => simp [cqAux, ih]

theorem qcState_cons (enabled ct : Bool) (e : Event) (rest : List Event) :
    qcState enabled ct (e :: rest) =
      qcState enabled (qcStep enabled ct e).1 rest := rfl

theorem qcRun_get :
    ∀ (evts : List Event) (ct : Bool) (i : Nat) (e : Event),
      evts[i]? = some e →
      (qcRun true ct evts)[i]? =
        some (qcStep true (qcState true ct (evts.take i)) e).2 := by
  intro evts
  induction evts with
  | nil => intro ct i e h; cases h
  | cons ev rest ih =>
    intro ct i e h
    cases i with
    | zero =>
      simp only [List.getElem?_cons_zero, Option.some.injEq] at h
      subst h
      simp only [qcRun, List.getElem?_cons_zero, List.take_zero, qcState]
    | succ i =>
      simp only [List.getElem?_cons_succ] at h
      simp only [qcRun, List.getElem?_cons_succ, List.take_succ_cons, qcState_cons]
      exact ih _ i e h

theorem qcState_append (enabled ct : Bool) (xs ys : List Event) :
    qcState enabled ct (xs ++ ys) =
      qcState enabled (qcState enabled ct xs) ys := by
  induction xs generalizing ct with
  | nil => rfl
  | cons x rest ih => simp only [List.cons_append, qcState_cons, ih]

theorem qcRun_append (enabled ct : Bool) (xs ys : List Event) :
    qcRun enabled ct (xs ++ ys) =
      qcRun enabled ct xs ++ qcRun enabled (qcState enabled ct xs) ys := by
  induction xs generalizing ct with
  | nil => rfl
  | cons x rest ih =>
    simp only [List.cons_append, qcRun, qcState_cons, List.append_eq, ih]

/-- C9: with curly-quote substitution enabled, (a) within a converted text a
character that has a preceding character is mapped by `curlyChar`: a
straight quote becomes the open quote when the preceding original character
is whitespace and the close quote otherwise, every other character is left
unchanged, and the text's length is preserved; (b) a text event processed
while `convert_text` holds (outside fenced code blocks) is converted by
`convert_quotes_to_curly`; (c) a text event inside a fenced code block is
left with straight quotes unchanged; (d) inline code spans are never
touched; and (e) exactly the code-block start/end events toggle the
outside-a-code-block state. -/
theorem curly_quotes_events :
    (∀ (s : List Char) (i : Nat) (pc c : Char),
      s[i]? = some pc → s[i + 1]? = some c →
      (convert_quotes_to_curly s)[i + 1]? =
        some (curlyChar (isRustWhitespace pc) c)) ∧
    (∀ s : List Char, (convert_quotes_to_curly s).length = s.length) ∧
    (∀ (evts : List Event) (i : Nat) (s : List Char),
      evts[i]? = some (.text s) → qcState true true (evts.take i) = true →
      (qcRun true true evts)[i]? = some (.text (convert_quotes_to_curly s))) ∧
    (∀ (evts : List Event) (i : Nat) (s : List Char),
      evts[i]? = some (.text s) → qcState true true (evts.take i) = false →
      (qcRun true true evts)[i]? = some (.text s)) ∧
    (∀ (evts : List Event) (i : Nat) (s : List Char),
      evts[i]? = some (.code s) →
      (qcRun true true evts)[i]? = some (.code s)) ∧
    (∀ (b : Bool) (info : List Char),
      (qcStep true b (.start (.codeBlock info))).1 = false ∧
      (qcStep true b (.stop (.codeBlock info))).1 = true ∧
      ∀ s : List Char, (qcStep true b (.text s)).1 = b ∧
        (qcStep true b (.code s)).1 = b) := by
  refine ⟨fun s i pc c h1 h2 => cqAux_get_succ s true i pc c h1 h2,
    fun s => cqAux_length true s, ?_, ?_, ?_, ?_⟩
  · intro evts i s h hstate
    rw [qcRun_get evts true i _ h, hstate]
    rfl
  · intro evts i s h hstate
    rw [qcRun_get evts true i _ h, hstate]
    rfl
  · intro evts i s h
    rw [qcRun_get evts true i _ h]
    cases qcState true true (evts.take i) <;> rfl
  · intro b info
    refine ⟨rfl, rfl, fun s => ⟨?_, ?_⟩⟩ <;> cases b <;> rfl

/-- A sample text with straight quotes: `a 'b'`. -/
def sQ : List Char := ['a', ' ', '\'', 'b', '\'']

/-- A sample event sequence: a fenced code block containing `sQ` as text,
then the same text outside any code block. -/
def evtsQ : List Event :=
  [.start (.codeBlock []), .text sQ, .stop (.codeBlock []), .text sQ, .code sQ]

/-- Witness for C9: on `evtsQ`, the text inside the code block keeps its
straight quotes, the text outside is converted (` 'b'` → open/close curly
quotes), the inline code span is untouched, and the per-character rule
produces an open quote after the whitespace at index 1. -/
theorem curly_quotes_events_witness :
    (qcRun true true evtsQ)[1]? = some (.text sQ) ∧
    (qcRun true true evtsQ)[3]? = some (.text (convert_quotes_to_curly sQ)) ∧
    (qcRun true true evtsQ)[4]? = some (.code sQ) ∧
    (convert_quotes_to_curly sQ)[2]? =
      some (curlyChar (isRustWhitespace ' ') '\'') ∧
    convert_quotes_to_curly sQ = ['a', ' ', '‘', 'b', '’'] :=
  ⟨curly_quotes_events.2.2.2.1 evtsQ 1 sQ (by rfl) (by rfl),
   curly_quotes_events.2.2.1 evtsQ 3 sQ (by rfl) (by rfl),
   curly_quotes_events.2.2.2.2.1 evtsQ 4 sQ (by rfl),
   curly_quotes_events.1 sQ 1 ' ' '\'' (by rfl) (by rfl),
   by decide⟩

/-- C10: the converter resets its whitespace state at the start of every
text event: (a) a straight quote as the very first character of a text
always becomes the opening curly quote, regardless of what preceded the
event; (b) the conversion of an appended text event depends only on the
code-block state accumulated so far, never on the characters of earlier
events. -/
theorem quote_converter_resets_per_event :
    (∀ rest : List Char,
      (convert_quotes_to_curly ('\'' :: rest))[0]? = some '‘') ∧
    (∀ rest : List Char,
      (convert_quotes_to_curly ('"' :: rest))[0]? = some '“') ∧
    (∀ (evts : List Event) (s : List Char),
      qcRun true true (evts ++ [.text s]) =
        qcRun true true evts ++
          [.text (if qcState true true evts then convert_quotes_to_curly s
            else s)]) := by
  refine ⟨?_, ?_, ?_⟩
  · intro rest
    have hc : curlyChar true '\'' = '‘' := by decide
    simp [convert_quotes_to_curly, cqAux, hc]
  · intro rest
    have hc : curlyChar true '"' = '“' := by decide
    simp [convert_quotes_to_curly, cqAux, hc]
  · intro evts s
    rw [qcRun_append]
    cases qcState true true evts <;> rfl

/-! ## The link resolver (`adjust_links` in `src/utils/mod.rs`) -/

/-- Lowercase ASCII letter, the `[a-z]` class. -/
def lowerAlpha (c : Char) : Bool := 'a' ≤ c && c ≤ 'z'

/-- The `[a-z0-9+.-]` class of the scheme regex. -/
def schemeChar (c : Char) : Bool :=
  lowerAlpha c || ('0' ≤ c && c ≤ '9') || c = '+' || c = '.' || c = '-'

/-- Matcher for the tail of `SCHEME_LINK`: a run of scheme characters
terminated by `:`. -/
def schemeRest : List Char → Bool
  | [] => false
  | ':' :: _ => true
  | c :: rest => schemeChar c && schemeRest rest

/-- `SCHEME_LINK.is_match` (utils/mod.rs line 128): the anchored regex
`^[a-z][a-z0-9+.-]*:` holds of a destination iff it starts with a lowercase
letter followed by scheme characters up to a colon. -/
def isSchemeLink : List Char → Bool
  | [] => false
  | c :: rest => lowerAlpha c && schemeRest rest

/-- `dest.starts_with('#')`. -/
def startsHash : List Char → Bool
  | '#' :: _ => true
  | _ => false

/-- Does the list start with the three characters `.md`? -/
def startsMd : List Char → Bool
  | '.' :: 'm' :: 'd' :: _ => true
  | _ => false

/-- Does the list contain `.md` anywhere? -/
def hasMd : List Char → Bool
  | [] => false
  | c :: rest => startsMd (c :: rest) || hasMd rest

/-- Split around the last occurrence of `.md`: `some (a, b)` means the input
is `a ++ ".md" ++ b` and no later occurrence exists (later occurrences are
preferred by the recursion, matching the greedy `.*` of `MD_LINK`). -/
def splitLastMd : List Char → Option (List Char × List Char)
  | [] => none
  | c :: rest =>
    match splitLastMd rest with
    | some (a, b) => some (c :: a, b)
    | none =>
      if startsMd (c :: rest) then some ([], rest.drop 2) else none

/-- Split a string into its newline-separated lines. -/
def splitLines : List Char → List (List Char)
  | [] => [[]]
  | c :: rest =>
    if c = '\n' then [] :: splitLines rest
    else
      match splitLines rest with
      | l :: ls => (c :: l) :: ls
      | [] => [[c]]

/-- First line that contains `.md`. -/
def findMdLine : List (List Char) → Option (List Char)
  | [] => none
  | l :: ls => if hasMd l then some l else findMdLine ls

/-- The captures of `MD_LINK = (?P<link>.*)\.md(?P<anchor>#.*)?` (utils/mod.rs
line 129) under leftmost-greedy regex search: none of the pattern's pieces
can cross a newline, so the leftmost match starts at the beginning of the
first line containing `.md`; the greedy `.*` puts the `link` capture up to
that line's last `.md` occurrence, and the optional `anchor` capture is the
remainder of the line exactly when it starts with `#`. -/
def mdLinkCaptures (s : List Char) : Option (List Char × Option (List Char)) :=
  match findMdLine (splitLines s) with
  | none => none
  | some line =>
    match splitLastMd line with
    | some (a, b) =>
      some (a, match b with | '#' :: _ => some b | _ => none)
    | none => none

/-- `Path::parent` rendered as a string: everything before the last `/`,
empty when there is no `/`. -/
def parentDir (p : List Char) : List Char :=
  ((p.reverse.dropWhile (fun c => c ≠ '/')).drop 1).reverse

/-- The symlink-aware resolution of `adjust_links::fix` (utils/mod.rs lines
166-221) abstracted as an injected oracle: the code canonicalizes the
current and target markdown paths on the real file system, looks both up in
`to_render_paths` and diffs the destination paths; all of that depends only
on the captured `link` text and ambient context, and produces the relative
html path on success and nothing on any failure (which the code logs as a
warning and falls through). -/
structure SymlinkResolveContext where
  resolve : List Char → Option (List Char)

/-- `adjust_links::fix` (utils/mod.rs lines 132-236): fragment-only links
are prefixed with the print-page path when one is given; scheme-prefixed
destinations are returned unchanged; otherwise the destination is prefixed
with the page's parent directory (print mode only) and, when `MD_LINK`
matches, the link is replaced by the symlink resolution result or, on
failure, by the captured link with `.html` appended, followed by the
captured anchor. -/
def fix (dest : List Char) (path : Option (List Char))
    (ctx : Option SymlinkResolveContext) : List Char :=
  if startsHash dest then
    match path with
    | some p =>
      (if (".md".toList).isSuffixOf p then p.take (p.length - 3) ++ ".html".toList
       else p) ++ dest
    | none => dest
  else if isSchemeLink dest then dest
  else
    let base := match path with
      | some p =>
        let par := parentDir p
        if par = [] then [] else par ++ ['/']
      | none => []
    match mdLinkCaptures dest with
    | some (link, anchor) =>
      let core := match ctx with
        | some c =>
          match c.resolve link with
          | some r => r
          | none => link ++ ".html".toList
        | none => link ++ ".html".toList
      base ++ core ++ anchor.getD []
    | none => base ++ dest

/-- Match a literal prefix, returning the remainder on success. -/
def litPre {α : Type} [DecidableEq α] : List α → List α → Option (List α)
  | [], l => some l
  | _ :: _, [] => none
  | c :: cs, x :: xs => if x = c then litPre cs xs else none

theorem litPre_recon {α : Type} [DecidableEq α] :
    ∀ {lit l rest : List α}, litPre lit l = some rest → l = lit ++ rest := by
  intro lit
  induction lit with
  | nil =>
    intro l rest h
    simp only [litPre, Option.some.injEq] at h
    rw [h]
    rfl
  | cons c cs ih =>
    intro l rest h
    cases l with
    | nil => cases h
    | cons x xs =>
      simp only [litPre] at h
      by_cases hx : x = c
      · rw [if_pos hx] at h
        rw [hx, List.cons_append]
        rw [← ih h]
      · rw [if_neg hx] at h; cases h

theorem litPre_self {α : Type} [DecidableEq α] :
    ∀ (lit r : List α), litPre lit (lit ++ r) = some r := by
  intro lit
  induction lit with
  | nil => intro r; rfl
  | cons c cs ih =>
    intro r
    simp only [List.cons_append, litPre, if_pos rfl, List.append_eq, ih,
      if_true]

/-- The `(?:a|img) ` piece of `HTML_LINK` right after `<` (alternation in
regex order). -/
def tagAfterLt (l : List Char) : Option (List Char × List Char) :=
  match litPre ("a ".toList) l with
  | some rest => some ("a ".toList, rest)
  | none =>
    match litPre ("img ".toList) l with
    | some rest => some ("img ".toList, rest)
    | none => none

theorem tagAfterLt_recon {l lit after : List Char}
    (h : tagAfterLt l = some (lit, after)) : l = lit ++ after := by
  unfold tagAfterLt at h
  cases h1 : litPre ("a ".toList) l with
  | some rest =>
    rw [h1] at h
    simp only [Option.some.injEq, Prod.mk.injEq] at h
    rw [← h.1, ← h.2]
    exact litPre_recon h1
  | none =>
    rw [h1] at h
    cases h2 : litPre ("img ".toList) l with
    | some rest =>
      rw [h2] at h
      simp only [Option.some.injEq, Prod.mk.injEq] at h
      rw [← h.1, ← h.2]
      exact litPre_recon h2
    | none => rw [h2] at h; cases h

/-- The `(?:src|href)="` piece of `HTML_LINK` (alternation in regex
order). -/
def srcHrefQuote (l : List Char) : Option (List Char × List Char) :=
  match litPre ("src=\"".toList) l with
  | some rest => some ("src=\"".toList, rest)
  | none =>
    match litPre ("href=\"".toList) l with
    | some rest => some ("href=\"".toList, rest)
    | none => none

theorem srcHrefQuote_recon {l lit after : List Char}
    (h : srcHrefQuote l = some (lit, after)) : l = lit ++ after := by
  unfold srcHrefQuote at h
  cases h1 : litPre ("src=\"".toList) l with
  | some rest =>
    rw [h1] at h
    simp only [Option.some.injEq, Prod.mk.injEq] at h
    rw [← h.1, ← h.2]
    exact litPre_recon h1
  | none =>
    rw [h1] at h
    cases h2 : litPre ("href=\"".toList) l with
    | some rest =>
      rw [h2] at h
      simp only [Option.some.injEq, Prod.mk.injEq] at h
      rw [← h.1, ← h.2]
      exact litPre_recon h2
    | none => rw [h2] at h; cases h

/-- Chars up to the first `"`, together with the remainder after it. -/
def grabUpToQuote : List Char → Option (List Char × List Char)
  | [] => none
  | c :: rest =>
    if c = '"' then some ([], rest)
    else (grabUpToQuote rest).map (fun x => (c :: x.1, x.2))

/-- The `([^"]+?)"` piece of `HTML_LINK`: a non-empty run up to the first
closing quote. -/
def grabDest (l : List Char) : Option (List Char × List Char) :=
  match grabUpToQuote l with
  | some (d, r) => if d = [] then none else some (d, r)
  | none => none

/-- The lazy `[^>]*?(?:src|href)="([^"]+?)"` scan: at each position first
try the attribute-plus-destination, else consume one non-`>` character and
retry (regex backtracking order for a lazy quantifier). Returns the
consumed characters including the attribute literal, the destination, and
the remainder after the closing quote. -/
def scanAttr : List Char → Option (List Char × List Char × List Char)
  | [] => none
  | c :: rest =>
    match srcHrefQuote (c :: rest) with
    | some (lit, after) =>
      match grabDest after with
      | some (d, r) => some (lit, d, r)
      | none =>
        if c = '>' then none
        else (scanAttr rest).map (fun x => (c :: x.1, x.2.1, x.2.2))
    | none =>
      if c = '>' then none
      else (scanAttr rest).map (fun x => (c :: x.1, x.2.1, x.2.2))

/-- Try `HTML_LINK` at the current position: `<`, then `a ` or `img `, then
the attribute scan. Returns group 1, the destination (group 2) and the
remainder after the closing quote. -/
def tryMatchAt (l : List Char) : Option (List Char × List Char × List Char) :=
  match litPre ['<'] l with
  | some rest =>
    match tagAfterLt rest with
    | some ta =>
      (scanAttr ta.2).map (fun x => ('<' :: (ta.1 ++ x.1), x.2.1, x.2.2))
    | none => none
  | none => none

/-- Leftmost `HTML_LINK` match: prefix before the match, group 1, the
destination, and the remainder after the match's closing quote. -/
def findHtmlMatch : List Char → Option (List Char × List Char × List Char × List Char)
  | [] => none
  | c :: rest =>
    match tryMatchAt (c :: rest) with
    | some x => some ([], x.1, x.2.1, x.2.2)
    | none =>
      (findHtmlMatch rest).map (fun x => (c :: x.1, x.2.1, x.2.2.1, x.2.2.2))

theorem grabUpToQuote_recon :
    ∀ {l d r : List Char}, grabUpToQuote l = some (d, r) → l = d ++ '"' :: r := by
  intro l
  induction l with
  | nil => intro d r h; cases h
  | cons c rest ih =>
    intro d r h
    simp only [grabUpToQuote] at h
    by_cases hc : c = '"'
    · rw [if_pos hc] at h
      simp at h
      obtain ⟨rfl, rfl⟩ := h
      rw [hc]
      rfl
    · rw [if_neg hc] at h
      cases hg : grabUpToQuote rest with
      | none => rw [hg] at h; cases h
      | some x =>
        obtain ⟨d', r'⟩ := x
        rw [hg] at h
        simp at h
        obtain ⟨rfl, rfl⟩ := h
        simp [ih hg]

theorem grabDest_recon {l d r : List Char} (h : grabDest l = some (d, r)) :
    l = d ++ '"' :: r := by
  unfold grabDest at h
  cases hg : grabUpToQuote l with
  | none => rw [hg] at h; cases h
  | some x =>
    obtain ⟨d', r'⟩ := x
    rw [hg] at h
    dsimp only at h
    by_cases hd : d' = []
    · rw [if_pos hd] at h; cases h
    · rw [if_neg hd] at h
      simp at h
      obtain ⟨rfl, rfl⟩ := h
      exact grabUpToQuote_recon hg

theorem scanAttr_recon :
    ∀ {l g d r : List Char}, scanAttr l = some (g, d, r) →
      l = g ++ d ++ '"' :: r := by
  intro l
  induction l with
  | nil => intro g d r h; cases h
  | cons c rest ih =>
    intro g d r h
    unfold scanAttr at h
    cases hs : srcHrefQuote (c :: rest) with
    | some la =>
      obtain ⟨lit, after⟩ := la
      rw [hs] at h
      dsimp only at h
      cases hgd : grabDest after with
      | some dr =>
        obtain ⟨d', r'⟩ := dr
        rw [hgd] at h
        dsimp only at h
        simp at h
        obtain ⟨rfl, rfl, rfl⟩ := h
        rw [srcHrefQuote_recon hs, grabDest_recon hgd]
        simp
      | none =>
        rw [hgd] at h
        dsimp only at h
        by_cases hc : c = '>'
        · rw [if_pos hc] at h; cases h
        · rw [if_neg hc] at h
          cases hsc : scanAttr rest with
          | none => rw [hsc] at h; cases h
          | some x =>
            obtain ⟨g', d', r'⟩ := x
            rw [hsc] at h
            simp at h
            obtain ⟨rfl, rfl, rfl⟩ := h
            simp [ih hsc]
    | none =>
      rw [hs] at h
      dsimp only at h
      by_cases hc : c = '>'
      · rw [if_pos hc] at h; cases h
      · rw [if_neg hc] at h
        cases hsc : scanAttr rest with
        | none => rw [hsc] at h; cases h
        | some x =>
          obtain ⟨g', d', r'⟩ := x
          rw [hsc] at h
          simp at h
          obtain ⟨rfl, rfl, rfl⟩ := h
          simp [ih hsc]

theorem tryMatchAt_recon {l g d r : List Char}
    (h : tryMatchAt l = some (g, d, r)) : l = g ++ d ++ '"' :: r := by
  unfold tryMatchAt at h
  cases h1 : litPre ['<'] l with
  | none => rw [h1] at h; cases h
  | some rest =>
    rw [h1] at h
    dsimp only at h
    cases h2 : tagAfterLt rest with
    | none => rw [h2] at h; cases h
    | some ta =>
      obtain ⟨tagLit, after⟩ := ta
      rw [h2] at h
      dsimp only at h
      cases h3 : scanAttr after with
      | none => rw [h3] at h; cases h
      | some x =>
        obtain ⟨g', d', r'⟩ := x
        rw [h3] at h
        simp at h
        obtain ⟨rfl, rfl, rfl⟩ := h
        rw [litPre_recon h1, tagAfterLt_recon h2, scanAttr_recon h3]
        simp

theorem findHtmlMatch_recon :
    ∀ {s p g d r : List Char}, findHtmlMatch s = some (p, g, d, r) →
      s = p ++ g ++ d ++ '"' :: r := by
  intro s
  induction s with
  | nil => intro p g d r h; cases h
  | cons c rest ih =>
    intro p g d r h
    unfold findHtmlMatch at h
    cases ht : tryMatchAt (c :: rest) with
    | some x =>
      obtain ⟨g', d', r'⟩ := x
      rw [ht] at h
      simp at h
      obtain ⟨rfl, rfl, rfl, rfl⟩ := h
      simpa using tryMatchAt_recon ht
    | none =>
      rw [ht] at h
      cases hf : findHtmlMatch rest with
      | none => rw [hf] at h; cases h
      | some x =>
        obtain ⟨p', g', d', r'⟩ := x
        rw [hf] at h
        simp at h
        obtain ⟨rfl, rfl, rfl, rfl⟩ := h
        simp [ih hf]

theorem findHtmlMatch_rest_length
    {s p g d r : List Char} (h : findHtmlMatch s = some (p, g, d, r)) :
    r.length < s.length := by
  have := findHtmlMatch_recon h
  subst this
  simp only [List.length_append, List.length_cons]
  omega

/-- Fuelled form of the `HTML_LINK.replace_all` loop; the fuel only bounds
the number of matches and is immaterial as soon as it reaches the input's
length (`fixHtmlGo_fuel`). -/
def fixHtmlGo (fuel : Nat) (html : List Char) (path : Option (List Char))
    (ctx : Option SymlinkResolveContext) : List Char :=
  match fuel with
  | 0 => html
  | fuel + 1 =>
    match findHtmlMatch html with
    | none => html
    | some (p, g, d, r) =>
      p ++ g ++ fix d path ctx ++ '"' :: fixHtmlGo fuel r path ctx

/-- `fix_html` (utils/mod.rs lines 238-263): `HTML_LINK.replace_all`, where
each match is replaced by group 1, the fixed destination and the closing
quote, leaving everything in between unchanged. -/
def fix_html (html : List Char) (path : Option (List Char))
    (ctx : Option SymlinkResolveContext) : List Char :=
  fixHtmlGo html.length html path ctx

/-- Fuelled collection of the destinations of successive `HTML_LINK`
matches. -/
def collectGo (fuel : Nat) (html : List Char) : List (List Char) :=
  match fuel with
  | 0 => []
  | fuel + 1 =>
    match findHtmlMatch html with
    | none => []
    | some (_, _, d, r) => d :: collectGo fuel r

/-- All destinations captured by successive `HTML_LINK` matches. -/
def collectHtmlDests (html : List Char) : List (List Char) :=
  collectGo html.length html

theorem fixHtmlGo_fuel :
    ∀ (n m : Nat) (html : List Char) (path : Option (List Char))
      (ctx : Option SymlinkResolveContext),
      html.length ≤ n → html.length ≤ m →
      fixHtmlGo n html path ctx = fixHtmlGo m html path ctx := by
  intro n
  induction n with
  | zero =>
    intro m html path ctx hn _
    have : html = [] := List.length_eq_zero.1 (Nat.le_zero.1 hn)
    subst this
    cases m with
    | zero => rfl
    | succ m => rfl
  | succ n ih =>
    intro m html path ctx hn hm
    cases hma : findHtmlMatch html with
    | none =>
      cases m with
      | zero =>
        have : html = [] := List.length_eq_zero.1 (Nat.le_zero.1 hm)
        subst this
        rfl
      | succ m => simp only [fixHtmlGo, hma]
    | some x =>
      obtain ⟨p, g, d, r⟩ := x
      have hlen := findHtmlMatch_rest_length hma
      cases m with
      | zero => omega
      | succ m =>
        simp only [fixHtmlGo, hma]
        rw [ih m r path ctx (by omega) (by omega)]

theorem collectGo_fuel :
    ∀ (n m : Nat) (html : List Char),
      html.length ≤ n → html.length ≤ m →
      collectGo n html = collectGo m html := by
  intro n
  induction n with
  | zero =>
    intro m html hn _
    have : html = [] := List.length_eq_zero.1 (Nat.le_zero.1 hn)
    subst this
    cases m with
    | zero => rfl
    | succ m => rfl
  | succ n ih =>
    intro m html hn hm
    cases hma : findHtmlMatch html with
    | none =>
      cases m with
      | zero =>
        have : html = [] := List.length_eq_zero.1 (Nat.le_zero.1 hm)
        subst this
        rfl
      | succ m => simp only [collectGo, hma]
    | some x =>
      obtain ⟨p, g, d, r⟩ := x
      have hlen := findHtmlMatch_rest_length hma
      cases m with
      | zero => omega
      | succ m =>
        simp only [collectGo, hma]
        rw [ih m r (by omega) (by omega)]

theorem fix_html_step_none {html : List Char} {path : Option (List Char)}
    {ctx : Option SymlinkResolveContext} (h : findHtmlMatch html = none) :
    fix_html html path ctx = html := by
  unfold fix_html
  cases hl : html.length with
  | zero => rfl
  | succ n => simp only [fixHtmlGo, h]

theorem fix_html_step_some {html p g d r : List Char}
    {path : Option (List Char)} {ctx : Option SymlinkResolveContext}
    (h : findHtmlMatch html = some (p, g, d, r)) :
    fix_html html path ctx =
      p ++ g ++ fix d path ctx ++ '"' :: fix_html r path ctx := by
  have hlen := findHtmlMatch_rest_length h
  unfold fix_html
  cases hl : html.length with
  | zero => omega
  | succ n =>
    simp only [fixHtmlGo, h]
    rw [fixHtmlGo_fuel n r.length r path ctx (by omega) (Nat.le_refl _)]

theorem collectHtmlDests_step_none {html : List Char}
    (h : findHtmlMatch html = none) : collectHtmlDests html = [] := by
  unfold collectHtmlDests
  cases hl : html.length with
  | zero => rfl
  | succ n => simp only [collectGo, h]

theorem collectHtmlDests_step_some {html p g d r : List Char}
    (h : findHtmlMatch html = some (p, g, d, r)) :
    collectHtmlDests html = d :: collectHtmlDests r := by
  have hlen := findHtmlMatch_rest_length h
  unfold collectHtmlDests
  cases hl : html.length with
  | zero => omega
  | succ n =>
    simp only [collectGo, h]
    rw [collectGo_fuel n r.length r (by omega) (Nat.le_refl _)]

/-- `adjust_links` (utils/mod.rs lines 265-279): fix the destinations of
link and image start tags and of `href`/`src` attributes in raw HTML
events; everything else passes through. -/
def adjust_links (e : Event) (path : Option (List Char))
    (ctx : Option SymlinkResolveContext) : Event :=
  match e with
  | .start (.link linkType dest title) =>
    .start (.link linkType (fix dest path ctx) title)
  | .start (.image linkType dest title) =>
    .start (.image linkType (fix dest path ctx) title)
  | .html h => .html (fix_html h path ctx)
  | e => e

theorem fix_scheme_unchanged {dest : List Char} {path : Option (List Char)}
    {ctx : Option SymlinkResolveContext} (h : isSchemeLink dest = true) :
    fix dest path ctx = dest := by
  cases dest with
  | nil => simp [isSchemeLink] at h
  | cons c rest =>
    simp only [isSchemeLink, Bool.and_eq_true] at h
    obtain ⟨hl, hr⟩ := h
    have hh : startsHash (c :: rest) = false := by
      unfold startsHash
      split
      · next heq =>
        rw [List.cons.injEq] at heq
        rw [heq.1] at hl
        exact absurd hl (by decide)
      · rfl
    have hs : isSchemeLink (c :: rest) = true := by
      simp [isSchemeLink, hl, hr]
    simp [fix, hh, hs]

theorem fix_html_scheme_aux :
    ∀ (n : Nat) (html : List Char) (path : Option (List Char))
      (ctx : Option SymlinkResolveContext),
      html.length ≤ n →
      (∀ d ∈ collectHtmlDests html, isSchemeLink d = true) →
      fix_html html path ctx = html := by
  intro n
  induction n with
  | zero =>
    intro html path ctx hn _
    have : html = [] := List.length_eq_zero.1 (Nat.le_zero.1 hn)
    subst this
    exact fix_html_step_none rfl
  | succ n ih =>
    intro html path ctx hn hall
    cases hma : findHtmlMatch html with
    | none => exact fix_html_step_none hma
    | some x =>
      obtain ⟨p, g, d, r⟩ := x
      have hlen := findHtmlMatch_rest_length hma
      have hcollect := collectHtmlDests_step_some hma
      have hd : isSchemeLink d = true := by
        apply hall
        rw [hcollect]
        exact List.mem_cons_self d _
      have hrest : ∀ d' ∈ collectHtmlDests r, isSchemeLink d' = true := by
        intro d' hd'
        apply hall
        rw [hcollect]
        exact List.mem_cons_of_mem d hd'
      rw [fix_html_step_some hma, fix_scheme_unchanged hd,
        ih r path ctx (by omega) hrest]
      exact (findHtmlMatch_recon hma).symm

/-- C6 amended: a destination matching the code's URI-scheme prefix regex
`SCHEME_LINK = ^[a-z][a-z0-9+.-]*:` — the lowercase-only restriction of the
RFC-3986 scheme grammar — is left completely unchanged by the destination
fixer, for every rendering mode (`path` is `none` for normal pages and
`some` for the print page) and for every symlink context, whether it occurs
as a link destination, an image destination, or an `href`/`src` attribute
inside an embedded raw HTML event. -/
theorem scheme_links_unchanged :
    (∀ (dest : List Char) (path : Option (List Char))
      (ctx : Option SymlinkResolveContext),
      isSchemeLink dest = true → fix dest path ctx = dest) ∧
    (∀ (linkType : Nat) (dest title : List Char) (path : Option (List Char))
      (ctx : Option SymlinkResolveContext),
      isSchemeLink dest = true →
      adjust_links (.start (.link linkType dest title)) path ctx =
        .start (.link linkType dest title)) ∧
    (∀ (linkType : Nat) (dest title : List Char) (path : Option (List Char))
      (ctx : Option SymlinkResolveContext),
      isSchemeLink dest = true →
      adjust_links (.start (.image linkType dest title)) path ctx =
        .start (.image linkType dest title)) ∧
    (∀ (html : List Char) (path : Option (List Char))
      (ctx : Option SymlinkResolveContext),
      (∀ d ∈ collectHtmlDests html, isSchemeLink d = true) →
      adjust_links (.html html) path ctx = .html html) := by
  refine ⟨fun dest path ctx h => fix_scheme_unchanged h, ?_, ?_, ?_⟩
  · intro linkType dest title path ctx h
    simp [adjust_links, fix_scheme_unchanged h]
  · intro linkType dest title path ctx h
    simp [adjust_links, fix_scheme_unchanged h]
  · intro html path ctx h
    simp [adjust_links,
      fix_html_scheme_aux html.length html path ctx (Nat.le_refl _) h]

/-- C6 counterexample: `HTTP://e.com` begins with a URI-scheme prefix under
the RFC-3986 scheme grammar (`scheme = ALPHA *( ALPHA / DIGIT / "+" / "-"
/ "." )` admits uppercase letters) followed by `:`, yet `SCHEME_LINK` is
lowercase-only, so in print mode (path `ch/p.md`) the code treats the
destination as relative and rewrites it to `ch/HTTP://e.com` instead of
leaving it unchanged. -/
theorem uppercase_scheme_rewritten :
    fix ("HTTP://e.com".toList) (some ("ch/p.md".toList)) none =
      "ch/HTTP://e.com".toList ∧
    "ch/HTTP://e.com".toList ≠ "HTTP://e.com".toList := by
  constructor
  · decide
  · decide

/-- A concrete raw HTML fragment whose only captured destination is
scheme-prefixed. -/
def htmlS : List Char := "<p><a href=\"https://e.com\">x</a></p>".toList

/-- Witness for C6: the scheme destination `https://example.com` is left
unchanged by `fix` in print mode with a live resolver, and the raw HTML
fragment `htmlS` passes through `adjust_links` untouched. -/
theorem scheme_links_unchanged_witness :
    fix ("https://example.com".toList) (some ("ch/p.md".toList))
      (some ⟨fun _ => some ['x']⟩) = "https://example.com".toList ∧
    adjust_links (.html htmlS) none none = .html htmlS :=
  ⟨scheme_links_unchanged.1 ("https://example.com".toList)
      (some ("ch/p.md".toList)) (some ⟨fun _ => some ['x']⟩) (by decide),
   scheme_links_unchanged.2.2.2 htmlS none none (by decide)⟩

/-! ## C3: the `.md` → `.html` fallback rewrite -/

/-- Whether symlink-aware resolution is unavailable (`ctx` is `none`) or
fails on the captured link. -/
def resolutionFails (ctx : Option SymlinkResolveContext)
    (link : List Char) : Prop :=
  match ctx with
  | none => True
  | some c => c.resolve link = none

theorem splitLines_no_newline :
    ∀ s : List Char, (∀ c ∈ s, c ≠ '\n') → splitLines s = [s] := by
  intro s
  induction s with
  | nil => intro _; rfl
  | cons c rest ih =>
    intro h
    have hc : c ≠ '\n' := h c (List.mem_cons_self c rest)
    have hr := ih (fun x hx => h x (List.mem_cons_of_mem c hx))
    simp only [splitLines, if_neg hc, hr]

theorem hasMd_append_md :
    ∀ (X b : List Char), hasMd (X ++ '.' :: 'm' :: 'd' :: b) = true := by
  intro X b
  induction X with
  | nil => rfl
  | cons c rest ih =>
    simp only [List.cons_append, hasMd, List.append_eq, ih, Bool.or_true]

theorem hasMd_false_splitLastMd :
    ∀ l : List Char, hasMd l = false → splitLastMd l = none := by
  intro l
  induction l with
  | nil => intro _; rfl
  | cons c rest ih =>
    intro h
    simp only [hasMd, Bool.or_eq_false_iff] at h
    rw [splitLastMd, ih h.2]
    simp [h.1]

theorem splitLastMd_end :
    ∀ X : List Char, splitLastMd (X ++ ['.', 'm', 'd']) = some (X, []) := by
  intro X
  induction X with
  | nil => decide
  | cons c rest ih =>
    simp only [List.cons_append, splitLastMd, List.append_eq, ih]

theorem splitLastMd_anchor :
    ∀ (X A : List Char), hasMd A = false →
      splitLastMd (X ++ '.' :: 'm' :: 'd' :: '#' :: A) = some (X, '#' :: A) := by
  intro X A hA
  induction X with
  | nil =>
    have h4 : hasMd ('m' :: 'd' :: '#' :: A) = false := by
      simp only [hasMd]
      rw [show startsMd ('m' :: 'd' :: '#' :: A) = false from rfl,
        show startsMd ('d' :: '#' :: A) = false from rfl,
        show startsMd ('#' :: A) = false from rfl, hA]
      rfl
    rw [List.nil_append, splitLastMd, hasMd_false_splitLastMd _ h4]
    rfl
  | cons c rest ih =>
    simp only [List.cons_append, splitLastMd, List.append_eq, ih]

theorem mdLinkCaptures_end (X : List Char) (hnl : ∀ c ∈ X, c ≠ '\n') :
    mdLinkCaptures (X ++ ['.', 'm', 'd']) = some (X, none) := by
  have hs : splitLines (X ++ ['.', 'm', 'd']) = [X ++ ['.', 'm', 'd']] := by
    apply splitLines_no_newline
    intro c hc
    rcases List.mem_append.1 hc with h | h
    · exact hnl c h
    · simp at h
      rcases h with rfl | rfl | rfl <;> decide
  have hf : findMdLine [X ++ ['.', 'm', 'd']] = some (X ++ ['.', 'm', 'd']) := by
    simp [findMdLine, hasMd_append_md X []]
  unfold mdLinkCaptures
  rw [hs, hf]
  dsimp only
  rw [splitLastMd_end X]

theorem mdLinkCaptures_anchor (X A : List Char) (hnlX : ∀ c ∈ X, c ≠ '\n')
    (hnlA : ∀ c ∈ A, c ≠ '\n') (hA : hasMd A = false) :
    mdLinkCaptures (X ++ '.' :: 'm' :: 'd' :: '#' :: A) =
      some (X, some ('#' :: A)) := by
  have hs : splitLines (X ++ '.' :: 'm' :: 'd' :: '#' :: A) =
      [X ++ '.' :: 'm' :: 'd' :: '#' :: A] := by
    apply splitLines_no_newline
    intro c hc
    rcases List.mem_append.1 hc with h | h
    · exact hnlX c h
    · simp at h
      rcases h with rfl | rfl | rfl | rfl | h
      · decide
      · decide
      · decide
      · decide
      · exact hnlA c h
  have hf : findMdLine [X ++ '.' :: 'm' :: 'd' :: '#' :: A] =
      some (X ++ '.' :: 'm' :: 'd' :: '#' :: A) := by
    simp [findMdLine, hasMd_append_md X ('#' :: A)]
  unfold mdLinkCaptures
  rw [hs, hf]
  dsimp only
  rw [splitLastMd_anchor X A hA]
  rfl

/-- C3 counterexample: the destination `a.md#b.md-notes` ends in `.md`
followed by the anchor `#b.md-notes`, so the claim predicts the rewrite
`a.html#b.md-notes`; but `MD_LINK`'s greedy `.*` matches up to the *last*
`.md` occurrence, which here lies inside the anchor, so the code produces
`a.md#b.html` instead (and drops the trailing `-notes`). -/
theorem md_anchor_counterexample :
    fix ("a.md#b.md-notes".toList) none none = "a.md#b.html".toList ∧
    "a.md#b.html".toList ≠ "a.html#b.md-notes".toList := by
  constructor
  · decide
  · decide

/-- C3 amended: for every newline-free relative destination that ends in
`.md`, or ends in `.md` followed by `#anchor` where the anchor itself
contains no `.md`, whenever symlink-aware resolution is unavailable or
fails (a mere warning, never an abort: `fix` is total), the renderer
replaces that `.md` with `.html` and preserves the anchor; in particular
`[x](a.md)` renders with destination `a.html` and `[x](a.md#sec)` with
`a.html#sec`. In general the rewrite replaces the last `.md` occurrence of
the destination and keeps an anchor only when it directly follows it. -/
theorem md_links_naive_fallback :
    (∀ (X : List Char) (ctx : Option SymlinkResolveContext),
      (∀ c ∈ X, c ≠ '\n') →
      startsHash (X ++ ['.', 'm', 'd']) = false →
      isSchemeLink (X ++ ['.', 'm', 'd']) = false →
      resolutionFails ctx X →
      fix (X ++ ['.', 'm', 'd']) none ctx = X ++ ".html".toList) ∧
    (∀ (X A : List Char) (ctx : Option SymlinkResolveContext),
      (∀ c ∈ X, c ≠ '\n') → (∀ c ∈ A, c ≠ '\n') → hasMd A = false →
      startsHash (X ++ '.' :: 'm' :: 'd' :: '#' :: A) = false →
      isSchemeLink (X ++ '.' :: 'm' :: 'd' :: '#' :: A) = false →
      resolutionFails ctx X →
      fix (X ++ '.' :: 'm' :: 'd' :: '#' :: A) none ctx =
        X ++ ".html".toList ++ '#' :: A) ∧
    adjust_links (.start (.link 0 ("a.md".toList) [])) none none =
      .start (.link 0 ("a.html".toList) []) ∧
    adjust_links (.start (.link 0 ("a.md#sec".toList) [])) none none =
      .start (.link 0 ("a.html#sec".toList) []) := by
  refine ⟨?_, ?_, by decide, by decide⟩
  · intro X ctx hnl hh hsc hres
    simp only [fix, hh, hsc, Bool.false_eq_true, if_false]
    rw [mdLinkCaptures_end X hnl]
    dsimp only
    cases ctx with
    | none => simp
    | some c =>
      have hr : c.resolve X = none := hres
      dsimp only
      rw [hr]
      simp
  · intro X A ctx hnlX hnlA hA hh hsc hres
    simp only [fix, hh, hsc, Bool.false_eq_true, if_false]
    rw [mdLinkCaptures_anchor X A hnlX hnlA hA]
    dsimp only
    cases ctx with
    | none => simp
    | some c =>
      have hr : c.resolve X = none := hres
      dsimp only
      rw [hr]
      simp

/-- Witness for the amended C3: instances of both shapes, with resolution
unavailable for the first and failing for the second. -/
theorem md_links_naive_fallback_witness :
    fix ("a".toList ++ ['.', 'm', 'd']) none none = "a".toList ++ ".html".toList ∧
    fix ("dir/b".toList ++ '.' :: 'm' :: 'd' :: '#' :: "sec".toList) none
      (some ⟨fun _ => none⟩) =
      "dir/b".toList ++ ".html".toList ++ '#' :: "sec".toList :=
  ⟨md_links_naive_fallback.1 ("a".toList) none (by decide) (by decide)
      (by decide) trivial,
   md_links_naive_fallback.2.1 ("dir/b".toList) ("sec".toList)
      (some ⟨fun _ => none⟩) (by decide) (by decide) (by decide) (by decide)
      (by decide) rfl⟩

/-! ## SHA-256 over byte lists (the `sha2` crate as used by `hash_files`) -/

/-- Truncation to a 32-bit word. -/
def w32 (n : Nat) : Nat := n % 4294967296

/-- 32-bit rotate right. -/
def rotr (n x : Nat) : Nat := w32 ((x >>> n) ||| (x <<< (32 - n)))

def bigSigma0 (x : Nat) : Nat := rotr 2 x ^^^ rotr 13 x ^^^ rotr 22 x
def bigSigma1 (x : Nat) : Nat := rotr 6 x ^^^ rotr 11 x ^^^ rotr 25 x
def smallSigma0 (x : Nat) : Nat := rotr 7 x ^^^ rotr 18 x ^^^ (x >>> 3)
def smallSigma1 (x : Nat) : Nat := rotr 17 x ^^^ rotr 19 x ^^^ (x >>> 10)

/-- The SHA-256 round constants. -/
def shaK : List Nat :=
  [1116352408, 1899447441, 3049323471, 3921009573, 961987163,
   1508970993, 2453635748, 2870763221, 3624381080, 310598401,
   607225278, 1426881987, 1925078388, 2162078206, 2614888103,
   3248222580, 3835390401, 4022224774, 264347078, 604807628,
   770255983, 1249150122, 1555081692, 1996064986, 2554220882,
   2821834349, 2952996808, 3210313671, 3336571891, 3584528711,
   113926993, 338241895, 666307205, 773529912, 1294757372,
   1396182291, 1695183700, 1986661051, 2177026350, 2456956037,
   2730485921, 2820302411, 3259730800, 3345764771, 3516065817,
   3600352804, 4094571909, 275423344, 430227734, 506948616,
   659060556, 883997877, 958139571, 1322822218, 1537002063,
   1747873779, 1955562222, 2024104815, 2227730452, 2361852424,
   2428436474, 2756734187, 3204031479, 3329325298]

/-- The SHA-256 initial state. -/
def shaH0 : List Nat :=
  [1779033703, 3144134277, 1013904242, 2773480762,
   1359893119, 2600822924, 528734635, 1541459225]

/-- Big-endian bytes of a number, fixed width. -/
def toBytesBE : Nat → Nat → List Nat
  | _, 0 => []
  | n, k + 1 => (n >>> (8 * k)) % 256 :: toBytesBE n k

/-- SHA-256 padding: `0x80`, zeros to 56 mod 64, and the bit length as a
64-bit big-endian number. -/
def padMessage (msg : List Nat) : List Nat :=
  let zeros := (119 - (msg.length % 64)) % 64
  msg ++ 0x80 :: (List.replicate zeros 0 ++ toBytesBE (msg.length * 8) 8)

/-- Big-endian 32-bit words of a byte list. -/
def toWordsBE : List Nat → List Nat
  | b0 :: b1 :: b2 :: b3 :: rest =>
    ((b0 <<< 24) ||| (b1 <<< 16) ||| (b2 <<< 8) ||| b3) :: toWordsBE rest
  | _ => []

/-- Message-schedule extension, one appended word per fuel unit. -/
def scheduleGo : Nat → List Nat → List Nat
  | 0, w => w
  | n + 1, w =>
    let i := w.length
    let wi := w32 (smallSigma1 (w.getD (i - 2) 0) + w.getD (i - 7) 0 +
      smallSigma0 (w.getD (i - 15) 0) + w.getD (i - 16) 0)
    scheduleGo n (w ++ [wi])

/-- One SHA-256 round on the eight-word state. -/
def compressStep (s : List Nat) (kw : Nat × Nat) : List Nat :=
  match s with
  | [a, b, c, d, e, f, g, h] =>
    let t1 := w32 (h + bigSigma1 e + ((e &&& f) ^^^ ((e ^^^ 4294967295) &&& g)) +
      kw.1 + kw.2)
    let t2 := w32 (bigSigma0 a + ((a &&& b) ^^^ (a &&& c) ^^^ (b &&& c)))
    [w32 (t1 + t2), a, b, c, w32 (d + t1), e, f, g]
  | s => s

/-- Compress one 16-word block into the state. -/
def compressBlock (h : List Nat) (block : List Nat) : List Nat :=
  let w := scheduleGo 48 block
  let s := (shaK.zip w).foldl compressStep h
  (h.zip s).map (fun p => w32 (p.1 + p.2))

/-- Process the message words block by block (the fuel bounds the number of
blocks; one word of fuel per word of input is always enough). -/
def processBlocksGo : Nat → List Nat → List Nat → List Nat
  | 0, h, _ => h
  | fuel + 1, h, words =>
    match words with
    | [] => h
    | _ :: _ =>
      processBlocksGo fuel (compressBlock h (words.take 16)) (words.drop 16)

/-- SHA-256 digest (32 bytes) of a byte list. -/
def sha256 (msg : List Nat) : List Nat :=
  let words := toWordsBE (padMessage msg)
  let hfin := processBlocksGo words.length shaH0 words
  (hfin.map (fun w => toBytesBE w 4)).flatten

/-- Lowercase hex digit of a nibble, as a byte. -/
def hexDigitByte (n : Nat) : Nat := if n < 10 then 48 + n else 87 + n

/-- `hex::encode` of a byte list, as bytes. -/
def hexBytes (bs : List Nat) : List Nat :=
  (bs.map (fun b => [hexDigitByte (b / 16), hexDigitByte (b % 16)])).flatten

/-- `hex::encode(&Sha256::digest(data)[..4])`: the 8-hex-character digest
used by `hash_files`. -/
def sha256_hex4 (data : List Nat) : List Nat :=
  hexBytes ((sha256 data).take 4)

/-- The bytes of a string literal. -/
def bytes (s : String) : List Nat := s.toList.map Char.toNat

/-- Known-answer test: the digest of the empty input, as expected by the
repository's own `test_write_directive` (`book-e3b0c442.js`). -/
theorem sha256_hex4_empty : sha256_hex4 [] = bytes "e3b0c442" := by decide

/-- Known-answer test: the FIPS 180 `abc` vector. -/
theorem sha256_abc : sha256 (bytes "abc") =
    [186, 120, 22, 191, 143, 1, 207, 234, 65, 65, 64, 222, 93, 174, 34, 35, 176, 3, 97, 163, 150, 23, 122, 156, 180, 16, 255, 97, 242, 0, 21, 173] := by decide

/-- Known-answer test: the digest of `{{ resource "book.js" }}`, as expected
by the repository's own `test_write_directive`
(`...-reference-635c9cdc.js`). -/
theorem sha256_hex4_directive :
    sha256_hex4 (bytes "\x7b\x7b resource \"book.js\" \x7d\x7d") =
      bytes "635c9cdc" := by decide

theorem toBytesBE_length : ∀ (k n : Nat), (toBytesBE n k).length = k := by
  intro k
  induction k with
  | zero => intro n; rfl
  | succ k ih => intro n; simp [toBytesBE, ih]

theorem compressStep_length {s : List Nat} (kw : Nat × Nat)
    (h : s.length = 8) : (compressStep s kw).length = 8 := by
  unfold compressStep
  split
  · rfl
  · exact h

theorem foldl_compressStep_length :
    ∀ (l : List (Nat × Nat)) (s : List Nat), s.length = 8 →
      (l.foldl compressStep s).length = 8 := by
  intro l
  induction l with
  | nil => intro s h; exact h
  | cons kw rest ih =>
    intro s h
    exact ih (compressStep s kw) (compressStep_length kw h)

theorem compressBlock_length {h : List Nat} (block : List Nat)
    (hh : h.length = 8) : (compressBlock h block).length = 8 := by
  unfold compressBlock
  have hs := foldl_compressStep_length (shaK.zip (scheduleGo 48 block)) h hh
  simp [List.length_zip, hh, hs]

theorem processBlocksGo_length :
    ∀ (fuel : Nat) (h words : List Nat), h.length = 8 →
      (processBlocksGo fuel h words).length = 8 := by
  intro fuel
  induction fuel with
  | zero => intro h words hh; exact hh
  | succ fuel ih =>
    intro h words hh
    cases words with
    | nil => exact hh
    | cons w rest =>
      exact ih _ _ (compressBlock_length _ hh)

theorem flatten_words_length :
    ∀ l : List Nat, ((l.map (fun w => toBytesBE w 4)).flatten).length =
      4 * l.length := by
  intro l
  induction l with
  | nil => rfl
  | cons w rest ih =>
    simp only [List.map_cons, List.flatten_cons, List.length_append, ih,
      toBytesBE_length, List.length_cons]
    omega

theorem sha256_length (msg : List Nat) : (sha256 msg).length = 32 := by
  unfold sha256
  rw [flatten_words_length, processBlocksGo_length]
  rfl

theorem hexBytes_length :
    ∀ bs : List Nat, (hexBytes bs).length = 2 * bs.length := by
  intro bs
  induction bs with
  | nil => rfl
  | cons b rest ih =>
    show ([hexDigitByte (b / 16), hexDigitByte (b % 16)] ++
      hexBytes rest).length = 2 * (b :: rest).length
    rw [List.length_append, ih]
    simp only [List.length_cons, List.length_nil]
    omega

theorem sha256_hex4_length (data : List Nat) :
    (sha256_hex4 data).length = 8 := by
  unfold sha256_hex4
  rw [hexBytes_length, List.length_take, sha256_length]
  decide

/-! ## The static file catalog (`static_files.rs`) -/

/-- `StaticFile` (static_files.rs lines 25-34): a built-in asset carries its
bytes, an additional asset carries its input location; both carry the
current logical filename (as bytes). -/
inductive StaticFile where
  | builtin (data : List Nat) (filename : List Nat) : StaticFile
  | additional (input_location : String) (filename : List Nat) : StaticFile
deriving Repr, DecidableEq

/-- `StaticFiles` (static_files.rs lines 20-23): the asset catalog plus the
old-name to fingerprinted-name map. The map is modelled as an association
list with the newest insertion in front, matching `HashMap::insert`
overwrite semantics under first-match lookup. -/
structure StaticFiles where
  static_files : List StaticFile
  hash_map : List (List Nat × List Nat)
deriving Repr, DecidableEq

/-- The file system the asset pipeline reads additional files from:
`none` models any open/read failure. -/
abbrev AssetFS := String → Option (List Nat)

/-- First-match lookup, i.e. `HashMap::get` on the association list. -/
def mapLookup (m : List (List Nat × List Nat)) (k : List Nat) :
    Option (List Nat) :=
  match m with
  | [] => none
  | kv :: rest => if kv.1 = k then some kv.2 else mapLookup rest k

/-- `filename.splitn(2, '.')` followed by the pairing in `hash_files`: the
name before the first `.` (byte 46) and everything after it; `none` when
there is no dot. -/
def splitFirstDot : List Nat → Option (List Nat × List Nat)
  | [] => none
  | b :: rest =>
    if b = 46 then some ([], rest)
    else (splitFirstDot rest).map (fun x => (b :: x.1, x.2))

/-- The hashing predicate for built-in assets (static_files.rs lines
152-156): non-empty base, non-empty extension, extension not `txt`, and not
one of the FontAwesome fonts. -/
def builtinHashPred (name suffix : List Nat) : Bool :=
  name != [] && suffix != [] && suffix != bytes "txt" &&
    !((bytes "FontAwesome/fonts/").isPrefixOf name)

/-- The hashing predicate for additional assets (static_files.rs line 171):
non-empty base and non-empty extension. -/
def additionalHashPred (name suffix : List Nat) : Bool :=
  name != [] && suffix != []

/-- `format!("{}-{}.{}", name, hex, suffix)` with the 8-hex-char truncated
SHA-256 digest of the asset's bytes (bytes 45 and 46 are `-` and `.`). -/
def hashedName (name suffix data : List Nat) : List Nat :=
  name ++ 45 :: sha256_hex4 data ++ 46 :: suffix

/-- One iteration of the `hash_files` loop (static_files.rs lines 138-195)
on a single catalog entry: returns the possibly renamed entry and the map
entry to record, or an error when an additional file cannot be read. -/
def hashOne (afs : AssetFS) : StaticFile →
    Except Unit (StaticFile × Option (List Nat × List Nat))
  | .builtin data filename =>
    match splitFirstDot filename with
    | some (name, suffix) =>
      if builtinHashPred name suffix then
        .ok (.builtin data (hashedName name suffix data),
          some (filename, hashedName name suffix data))
      else .ok (.builtin data filename, none)
    | none => .ok (.builtin data filename, none)
  | .additional loc filename =>
    match splitFirstDot filename with
    | some (name, suffix) =>
      if additionalHashPred name suffix then
        match afs loc with
        | none => .error ()
        | some data =>
          .ok (.additional loc (hashedName name suffix data),
            some (filename, hashedName name suffix data))
      else .ok (.additional loc filename, none)
    | none => .ok (.additional loc filename, none)

/-- Record a produced map entry, newest first (`HashMap::insert`). -/
def mapInsert (entry : Option (List Nat × List Nat))
    (m : List (List Nat × List Nat)) : List (List Nat × List Nat) :=
  match entry with
  | some kv => kv :: m
  | none => m

/-- The `hash_files` loop over the whole catalog, accumulating the map. -/
def hashFilesGo (afs : AssetFS) (m : List (List Nat × List Nat)) :
    List StaticFile →
    Except Unit (List StaticFile × List (List Nat × List Nat))
  | [] => .ok ([], m)
  | sf :: rest =>
    match hashOne afs sf with
    | .error e => .error e
    | .ok (sf', entry) =>
      match hashFilesGo afs (mapInsert entry m) rest with
      | .error e => .error e
      | .ok (rest', mfin) => .ok (sf' :: rest', mfin)

/-- `StaticFiles::hash_files` (static_files.rs lines 138-195). -/
def hash_files (afs : AssetFS) (st : StaticFiles) : Except Unit StaticFiles :=
  match hashFilesGo afs st.hash_map st.static_files with
  | .error e => .error e
  | .ok (files', m') => .ok ⟨files', m'⟩

theorem hashFilesGo_map_mono :
    ∀ (files : List StaticFile) (afs : AssetFS)
      (m : List (List Nat × List Nat)) files' m',
      hashFilesGo afs m files = .ok (files', m') →
      ∀ kv ∈ m, kv ∈ m' := by
  intro files
  induction files with
  | nil =>
    intro afs m files' m' h kv hkv
    simp only [hashFilesGo, Except.ok.injEq, Prod.mk.injEq] at h
    rw [← h.2]
    exact hkv
  | cons sf rest ih =>
    intro afs m files' m' h kv hkv
    simp only [hashFilesGo] at h
    cases h1 : hashOne afs sf with
    | error e => rw [h1] at h; cases h
    | ok x =>
      obtain ⟨sf', entry⟩ := x
      rw [h1] at h
      dsimp only at h
      cases h2 : hashFilesGo afs (mapInsert entry m) rest with
      | error e => rw [h2] at h; cases h
      | ok y =>
        obtain ⟨rest', mfin⟩ := y
        rw [h2] at h
        simp only [Except.ok.injEq, Prod.mk.injEq] at h
        rw [← h.2]
        refine ih afs _ rest' mfin h2 kv ?_
        cases entry with
        | none => exact hkv
        | some kv' => exact List.mem_cons_of_mem kv' hkv

theorem hashFilesGo_index :
    ∀ (files : List StaticFile) (afs : AssetFS)
      (m : List (List Nat × List Nat)) files' m',
      hashFilesGo afs m files = .ok (files', m') →
      ∀ (i : Nat) (sf : StaticFile), files[i]? = some sf →
        ∃ sf' entry, hashOne afs sf = .ok (sf', entry) ∧
          files'[i]? = some sf' ∧
          ∀ kv, entry = some kv → kv ∈ m' := by
  intro files
  induction files with
  | nil => intro afs m files' m' h i sf hsf; cases hsf
  | cons sf0 rest ih =>
    intro afs m files' m' h i sf hsf
    simp only [hashFilesGo] at h
    cases h1 : hashOne afs sf0 with
    | error e => rw [h1] at h; cases h
    | ok x =>
      obtain ⟨sf0', entry⟩ := x
      rw [h1] at h
      dsimp only at h
      cases h2 : hashFilesGo afs (mapInsert entry m) rest with
      | error e => rw [h2] at h; cases h
      | ok y =>
        obtain ⟨rest', mfin⟩ := y
        rw [h2] at h
        simp only [Except.ok.injEq, Prod.mk.injEq] at h
        obtain ⟨hfiles, hm⟩ := h
        cases i with
        | zero =>
          simp only [List.getElem?_cons_zero, Option.some.injEq] at hsf
          subst hsf
          refine ⟨sf0', entry, h1, ?_, ?_⟩
          · rw [← hfiles]
            simp
          · intro kv hkv
            subst hkv
            rw [← hm]
            refine hashFilesGo_map_mono rest afs _ rest' mfin h2 kv ?_
            exact List.mem_cons_self kv m

        | succ i =>
          simp only [List.getElem?_cons_succ] at hsf
          obtain ⟨sf', entry', hone, hidx, hmem⟩ :=
            ih afs _ rest' mfin h2 i sf hsf
          refine ⟨sf', entry', hone, ?_, ?_⟩
          · rw [← hfiles]
            simpa using hidx
          · intro kv hkv
            rw [← hm]
            exact hmem kv hkv

/-- C4: (a) a built-in asset whose logical name passes the hashing
predicate is renamed to `<base>-<digest>.<extension>` with the digest the
hex encoding of the first 4 bytes of the SHA-256 hash of its byte content,
and the old-to-new mapping is recorded; (b) the same for an additional
asset, hashing the bytes read from its input location; (c) `hash_files`
applies exactly this per-entry transformation at every catalog index and
every recorded entry ends up in the final map; (d) the digest is always 8
hex characters; (e) the digest is a pure function of the byte content —
the same `sha256_hex4 data` appears for both asset kinds — and changing
one byte changes the filename, witnessed at the contents `0` and `1`. -/
theorem hash_files_content_addressed :
    (∀ (afs : AssetFS) (data filename name suffix : List Nat),
      splitFirstDot filename = some (name, suffix) →
      builtinHashPred name suffix = true →
      hashOne afs (.builtin data filename) =
        .ok (.builtin data (hashedName name suffix data),
          some (filename, hashedName name suffix data))) ∧
    (∀ (afs : AssetFS) (loc : String) (data filename name suffix : List Nat),
      splitFirstDot filename = some (name, suffix) →
      additionalHashPred name suffix = true →
      afs loc = some data →
      hashOne afs (.additional loc filename) =
        .ok (.additional loc (hashedName name suffix data),
          some (filename, hashedName name suffix data))) ∧
    (∀ (afs : AssetFS) (st st' : StaticFiles),
      hash_files afs st = .ok st' →
      ∀ (i : Nat) (sf : StaticFile), st.static_files[i]? = some sf →
        ∃ sf' entry, hashOne afs sf = .ok (sf', entry) ∧
          st'.static_files[i]? = some sf' ∧
          ∀ kv, entry = some kv → kv ∈ st'.hash_map) ∧
    (∀ data : List Nat, (sha256_hex4 data).length = 8) ∧
    hashedName (bytes "book") (bytes "js") (bytes "0") ≠
      hashedName (bytes "book") (bytes "js") (bytes "1") := by
  refine ⟨?_, ?_, ?_, sha256_hex4_length, by decide⟩
  · intro afs data filename name suffix hsplit hpred
    simp only [hashOne, hsplit, hpred, if_true]
  · intro afs loc data filename name suffix hsplit hpred hread
    simp only [hashOne, hsplit, hpred, if_true, hread]
  · intro afs st st' h i sf hsf
    unfold hash_files at h
    cases hgo : hashFilesGo afs st.hash_map st.static_files with
    | error e => rw [hgo] at h; cases h
    | ok y =>
      obtain ⟨files', m'⟩ := y
      rw [hgo] at h
      simp only [Except.ok.injEq] at h
      subst h
      exact hashFilesGo_index st.static_files afs st.hash_map files' m' hgo
        i sf hsf

/-- Concrete asset file system for the C4 witness. -/
def afs0 : AssetFS := fun p => if p = "extra.css" then some (bytes "x") else none

/-- Concrete catalog for the C4 witness: one built-in, one additional. -/
def stA : StaticFiles :=
  ⟨[.builtin [] (bytes "book.js"), .additional "extra.css" (bytes "css/extra.css")],
   []⟩

/-- The catalog `stA` after hashing: `book.js` gets the digest of the empty
content, `css/extra.css` the digest of the byte `x`. -/
def stA' : StaticFiles :=
  ⟨[.builtin [] (bytes "book-e3b0c442.js"),
    .additional "extra.css" (bytes "css/extra-2d711642.css")],
   [(bytes "css/extra.css", bytes "css/extra-2d711642.css"),
    (bytes "book.js", bytes "book-e3b0c442.js")]⟩

set_option maxRecDepth 16384 in
/-- Witness for C4: the per-entry renames on the concrete catalog, and the
index characterization of the full `hash_files` run on `stA`. -/
theorem hash_files_content_addressed_witness :
    hashOne afs0 (.builtin [] (bytes "book.js")) =
      .ok (.builtin [] (hashedName (bytes "book") (bytes "js") []),
        some (bytes "book.js", hashedName (bytes "book") (bytes "js") [])) ∧
    (∃ sf' entry, hashOne afs0 (.additional "extra.css" (bytes "css/extra.css")) =
        .ok (sf', entry) ∧
      stA'.static_files[1]? = some sf' ∧
      ∀ kv, entry = some kv → kv ∈ stA'.hash_map) ∧
    hash_files afs0 stA = .ok stA' :=
  ⟨hash_files_content_addressed.1 afs0 [] (bytes "book.js") (bytes "book")
      (bytes "js") (by decide) (by decide),
   hash_files_content_addressed.2.2.1 afs0 stA stA' (by decide) 1
      (.additional "extra.css" (bytes "css/extra.css")) (by decide),
   by decide⟩

/-! ## `write_files` and the resource directive (C7) -/

/-- Modelled from the spec: `utils::fs::path_to_root` is called by
`write_files` but its definition is not among the provided sources; per the
spec it is "the relative path computed from the asset's own final location
back to the destination root", i.e. one `../` per directory component
(each `/`, byte 47) of the asset's final logical name. -/
def path_to_root (filename : List Nat) : List Nat :=
  ((filename.filter (fun b => b = 47)).map (fun _ => bytes "../")).flatten

/-- The opening bytes of the resource directive. -/
def dirOpen : List Nat := bytes "\x7b\x7b resource \""

/-- The closing bytes of the resource directive. -/
def dirClose : List Nat := bytes "\" \x7d\x7d"

/-- Try the directive regex at the current position: the literal opening,
then a non-empty run of non-quote bytes (byte 34 is `"`) as the captured
name, then the literal closing. -/
def tryDirective (l : List Nat) : Option (List Nat × List Nat) :=
  match litPre dirOpen l with
  | none => none
  | some r1 =>
    let name := r1.takeWhile (fun b => b != 34)
    if name = [] then none
    else
      match litPre dirClose (r1.dropWhile (fun b => b != 34)) with
      | none => none
      | some after => some (name, after)

theorem tryDirective_recon {l name after : List Nat}
    (h : tryDirective l = some (name, after)) :
    l = dirOpen ++ name ++ dirClose ++ after := by
  unfold tryDirective at h
  cases h1 : litPre dirOpen l with
  | none => rw [h1] at h; cases h
  | some r1 =>
    rw [h1] at h
    dsimp only at h
    by_cases hn : r1.takeWhile (fun b => b != 34) = []
    · rw [if_pos hn] at h; cases h
    · rw [if_neg hn] at h
      cases h2 : litPre dirClose (r1.dropWhile (fun b => b != 34)) with
      | none => rw [h2] at h; cases h
      | some aft =>
        rw [h2] at h
        simp at h
        obtain ⟨rfl, rfl⟩ := h
        have e1 := litPre_recon h1
        have e2 : r1 = r1.takeWhile (fun b => b != 34) ++
            r1.dropWhile (fun b => b != 34) :=
          Eq.symm (List.takeWhile_append_dropWhile _ _)
        have e3 := litPre_recon h2
        rw [e1]
        conv_lhs => rw [e2]
        rw [e3]
        simp [List.append_assoc]

theorem tryDirective_after_length {l name after : List Nat}
    (h : tryDirective l = some (name, after)) : after.length < l.length := by
  have := tryDirective_recon h
  subst this
  simp only [List.length_append]
  have : dirOpen.length = 13 := by decide
  omega

/-- The `resource.replace_all` loop (static_files.rs lines 202-222, 247-260)
with an abstract per-name replacement: scan left to right; at each position
either replace a full directive match by `resolver` applied to the captured
name, or keep the byte; fuel only bounds the number of scanned bytes and is
immaterial once it reaches the input's length. -/
def replaceResourceGo (fuel : Nat) (resolver : List Nat → List Nat)
    (l : List Nat) : List Nat :=
  match fuel with
  | 0 => l
  | fuel + 1 =>
    match l with
    | [] => []
    | c :: rest =>
      match tryDirective (c :: rest) with
      | some x => resolver x.1 ++ replaceResourceGo fuel resolver x.2
      | none => c :: replaceResourceGo fuel resolver rest

/-- `replace_all` of the directive regex. -/
def replaceResource (resolver : List Nat → List Nat) (l : List Nat) :
    List Nat :=
  replaceResourceGo l.length resolver l

theorem tryDirective_not_brace {c : Nat} {rest : List Nat} (hc : c ≠ 123) :
    tryDirective (c :: rest) = none := by
  unfold tryDirective
  rw [show litPre dirOpen (c :: rest) = none from by
    show litPre (123 :: _) (c :: rest) = none
    simp only [litPre, if_neg hc]]

theorem replaceResourceGo_succ_some {fuel : Nat}
    {resolver : List Nat → List Nat} {l name after : List Nat} (hl : l ≠ [])
    (ht : tryDirective l = some (name, after)) :
    replaceResourceGo (fuel + 1) resolver l =
      resolver name ++ replaceResourceGo fuel resolver after := by
  cases l with
  | nil => exact absurd rfl hl
  | cons c rest => simp only [replaceResourceGo, ht]

theorem replaceResourceGo_succ_none {fuel : Nat}
    {resolver : List Nat → List Nat} {c : Nat} {rest : List Nat}
    (ht : tryDirective (c :: rest) = none) :
    replaceResourceGo (fuel + 1) resolver (c :: rest) =
      c :: replaceResourceGo fuel resolver rest := by
  simp only [replaceResourceGo, ht]

theorem replaceResourceGo_fuel :
    ∀ (n m : Nat) (resolver : List Nat → List Nat) (l : List Nat),
      l.length ≤ n → l.length ≤ m →
      replaceResourceGo n resolver l = replaceResourceGo m resolver l := by
  intro n
  induction n with
  | zero =>
    intro m resolver l hn _
    have : l = [] := List.length_eq_zero.1 (Nat.le_zero.1 hn)
    subst this
    cases m with
    | zero => rfl
    | succ m => rfl
  | succ n ih =>
    intro m resolver l hn hm
    cases l with
    | nil =>
      cases m with
      | zero => rfl
      | succ m => rfl
    | cons c rest =>
      cases m with
      | zero => simp at hm
      | succ m =>
        cases ht : tryDirective (c :: rest) with
        | some x =>
          obtain ⟨nm, af⟩ := x
          have hlen := tryDirective_after_length ht
          rw [replaceResourceGo_succ_some (List.cons_ne_nil c rest) ht,
            replaceResourceGo_succ_some (List.cons_ne_nil c rest) ht]
          simp only [List.length_cons] at hn hm hlen
          rw [ih m resolver af (by omega) (by omega)]
        | none =>
          rw [replaceResourceGo_succ_none ht, replaceResourceGo_succ_none ht]
          simp only [List.length_cons] at hn hm
          rw [ih m resolver rest (by omega) (by omega)]

theorem replaceResource_no_brace :
    ∀ (resolver : List Nat → List Nat) (l : List Nat),
      (∀ x ∈ l, x ≠ 123) → replaceResource resolver l = l := by
  have go : ∀ (fuel : Nat) (resolver : List Nat → List Nat) (l : List Nat),
      (∀ x ∈ l, x ≠ 123) → replaceResourceGo fuel resolver l = l := by
    intro fuel
    induction fuel with
    | zero => intro resolver l _; rfl
    | succ fuel ih =>
      intro resolver l h
      cases l with
      | nil => rfl
      | cons c rest =>
        have hc : c ≠ 123 := h c (List.mem_cons_self c rest)
        rw [replaceResourceGo_succ_none (tryDirective_not_brace hc)]
        rw [ih resolver rest (fun x hx => h x (List.mem_cons_of_mem c hx))]
  intro resolver l h
  exact go l.length resolver l h

theorem takeWhile_append_all {α : Type} (p : α → Bool) :
    ∀ (l r : List α), (∀ x ∈ l, p x = true) →
      (l ++ r).takeWhile p = l ++ r.takeWhile p := by
  intro l
  induction l with
  | nil => intro r _; rfl
  | cons c rest ih =>
    intro r h
    simp only [List.cons_append, List.takeWhile_cons,
      h c (List.mem_cons_self c rest), if_true, List.cons.injEq, true_and]
    exact ih r (fun x hx => h x (List.mem_cons_of_mem c hx))

theorem dropWhile_append_all {α : Type} (p : α → Bool) :
    ∀ (l r : List α), (∀ x ∈ l, p x = true) →
      (l ++ r).dropWhile p = r.dropWhile p := by
  intro l
  induction l with
  | nil => intro r _; rfl
  | cons c rest ih =>
    intro r h
    simp only [List.cons_append, List.dropWhile_cons,
      h c (List.mem_cons_self c rest), if_true]
    exact ih r (fun x hx => h x (List.mem_cons_of_mem c hx))

theorem tryDirective_at_directive (name b : List Nat) (hne : name ≠ [])
    (hq : ∀ x ∈ name, x ≠ 34) :
    tryDirective (dirOpen ++ name ++ dirClose ++ b) = some (name, b) := by
  unfold tryDirective
  have h1 : litPre dirOpen (dirOpen ++ name ++ dirClose ++ b) =
      some (name ++ dirClose ++ b) := by
    rw [show (dirOpen ++ name ++ dirClose ++ b : List Nat) =
      dirOpen ++ (name ++ dirClose ++ b) from by simp [List.append_assoc]]
    exact litPre_self dirOpen _
  rw [h1]
  dsimp only
  have hall : ∀ x ∈ name, (fun y => y != 34) x = true := by
    intro x hx
    simpa using hq x hx
  have htake : (name ++ dirClose ++ b).takeWhile (fun y => y != 34) = name := by
    rw [show (name ++ dirClose ++ b : List Nat) = name ++ (dirClose ++ b)
      from by simp [List.append_assoc]]
    rw [takeWhile_append_all _ name (dirClose ++ b) hall]
    rw [show (dirClose ++ b : List Nat) = 34 :: (bytes " \x7d\x7d" ++ b)
      from rfl]
    simp [List.takeWhile_cons]
  have hdrop : (name ++ dirClose ++ b).dropWhile (fun y => y != 34) =
      dirClose ++ b := by
    rw [show (name ++ dirClose ++ b : List Nat) = name ++ (dirClose ++ b)
      from by simp [List.append_assoc]]
    rw [dropWhile_append_all _ name (dirClose ++ b) hall]
    rw [show (dirClose ++ b : List Nat) = 34 :: (bytes " \x7d\x7d" ++ b)
      from rfl]
    simp [List.dropWhile_cons]
  rw [htake, hdrop, if_neg hne, litPre_self dirClose b]

theorem replaceResource_directive :
    ∀ (resolver : List Nat → List Nat) (a name b : List Nat),
      (∀ x ∈ a, x ≠ 123) → name ≠ [] →
      (∀ x ∈ name, x ≠ 34 ∧ x ≠ 123) →
      replaceResource resolver (a ++ dirOpen ++ name ++ dirClose ++ b) =
        a ++ resolver name ++ replaceResource resolver b := by
  intro resolver a name b ha hne hq
  induction a with
  | nil =>
    simp only [List.nil_append]
    have ht := tryDirective_at_directive name b hne (fun x hx => (hq x hx).1)
    have hlen : (dirOpen ++ name ++ dirClose ++ b).length =
        b.length + 17 + name.length := by
      simp only [List.length_append]
      have h13 : dirOpen.length = 13 := by decide
      have h4 : dirClose.length = 4 := by decide
      omega
    have hpos : (dirOpen ++ name ++ dirClose ++ b).length =
        ((dirOpen ++ name ++ dirClose ++ b).length - 1) + 1 := by omega
    have hnil : (dirOpen ++ name ++ dirClose ++ b : List Nat) ≠ [] := by
      intro hcon
      have := congrArg List.length hcon
      rw [hlen] at this
      simp at this
    unfold replaceResource
    rw [hpos, replaceResourceGo_succ_some hnil ht]
    rw [replaceResourceGo_fuel ((dirOpen ++ name ++ dirClose ++ b).length - 1)
      b.length resolver b (by omega) (Nat.le_refl _)]
  | cons c a' ih =>
    have hc : c ≠ 123 := ha c (List.mem_cons_self c a')
    have ha' : ∀ x ∈ a', x ≠ 123 := fun x hx => ha x (List.mem_cons_of_mem c hx)
    have hstep :=
      @tryDirective_not_brace c (a' ++ dirOpen ++ name ++ dirClose ++ b) hc
    calc replaceResource resolver ((c :: a') ++ dirOpen ++ name ++ dirClose ++ b)
        = replaceResourceGo ((a' ++ dirOpen ++ name ++ dirClose ++ b).length + 1)
            resolver (c :: (a' ++ dirOpen ++ name ++ dirClose ++ b)) := by
          simp only [replaceResource, List.cons_append, List.length_cons]
      _ = c :: replaceResourceGo ((a' ++ dirOpen ++ name ++ dirClose ++ b).length)
            resolver (a' ++ dirOpen ++ name ++ dirClose ++ b) :=
          replaceResourceGo_succ_none hstep
      _ = c :: replaceResource resolver (a' ++ dirOpen ++ name ++ dirClose ++ b) :=
          rfl
      _ = c :: (a' ++ resolver name ++ replaceResource resolver b) := by
          rw [ih ha']
      _ = (c :: a') ++ resolver name ++ replaceResource resolver b := by
          simp [List.cons_append]

/-- A text asset by final name: style or script extension
(static_files.rs lines 208 and 242). -/
def isTextAsset (filename : List Nat) : Bool :=
  (bytes ".css").isSuffixOf filename || (bytes ".js").isSuffixOf filename

/-- The per-name replacement used by `write_files`: the relative path from
the asset's own final location back to the destination root, followed by
the fingerprinted filename from the map, or the literal unresolved name
when absent (`hash_map.get(name).map(|s| &s[..]).unwrap_or(&name)`). -/
def resolverFor (hash_map : List (List Nat × List Nat))
    (filename : List Nat) : List Nat → List Nat :=
  fun name => path_to_root filename ++ ((mapLookup hash_map name).getD name)

/-- One write of `write_files` (static_files.rs lines 196-276): a text
asset has its resource directives resolved, any other asset is written
byte for byte; an additional asset is read from its input location first
(a read failure is the only error). -/
def writeOne (afs : AssetFS) (hash_map : List (List Nat × List Nat)) :
    StaticFile → Except Unit (List Nat × List Nat)
  | .builtin data filename =>
    if isTextAsset filename then
      .ok (filename, replaceResource (resolverFor hash_map filename) data)
    else .ok (filename, data)
  | .additional loc filename =>
    match afs loc with
    | none => .error ()
    | some data =>
      if isTextAsset filename then
        .ok (filename, replaceResource (resolverFor hash_map filename) data)
      else .ok (filename, data)

/-- The `write_files` loop over the catalog, collecting one write per
asset in order. -/
def writeFilesGo (afs : AssetFS) (hash_map : List (List Nat × List Nat)) :
    List StaticFile → Except Unit (List (List Nat × List Nat))
  | [] => .ok []
  | sf :: rest =>
    match writeOne afs hash_map sf with
    | .error e => .error e
    | .ok w =>
      match writeFilesGo afs hash_map rest with
      | .error e => .error e
      | .ok ws => .ok (w :: ws)

/-- `StaticFiles::write_files` (static_files.rs lines 196-276): consumes
the catalog, writes every asset once, and returns the name map as the
`ResourceHelper`. -/
def write_files (afs : AssetFS) (st : StaticFiles) :
    Except Unit (List (List Nat × List Nat) × List (List Nat × List Nat)) :=
  match writeFilesGo afs st.hash_map st.static_files with
  | .error e => .error e
  | .ok ws => .ok (ws, st.hash_map)

theorem writeFilesGo_index :
    ∀ (files : List StaticFile) (afs : AssetFS)
      (hm : List (List Nat × List Nat)) ws,
      writeFilesGo afs hm files = .ok ws →
      ws.length = files.length ∧
      ∀ (i : Nat) (sf : StaticFile), files[i]? = some sf →
        ∃ w, writeOne afs hm sf = .ok w ∧ ws[i]? = some w := by
  intro files
  induction files with
  | nil =>
    intro afs hm ws h
    simp only [writeFilesGo, Except.ok.injEq] at h
    subst h
    exact ⟨rfl, fun i sf hsf => by cases hsf⟩
  | cons sf0 rest ih =>
    intro afs hm ws h
    simp only [writeFilesGo] at h
    cases h1 : writeOne afs hm sf0 with
    | error e => rw [h1] at h; cases h
    | ok w0 =>
      rw [h1] at h
      dsimp only at h
      cases h2 : writeFilesGo afs hm rest with
      | error e => rw [h2] at h; cases h
      | ok ws' =>
        rw [h2] at h
        simp only [Except.ok.injEq] at h
        subst h
        obtain ⟨hlen, hidx⟩ := ih afs hm ws' h2
        refine ⟨by simp [hlen], ?_⟩
        intro i sf hsf
        cases i with
        | zero =>
          simp only [List.getElem?_cons_zero, Option.some.injEq] at hsf
          subst hsf
          exact ⟨w0, h1, by simp⟩
        | succ i =>
          simp only [List.getElem?_cons_succ] at hsf ⊢
          exact hidx i sf hsf

/-- C7: during `write_files`, (a) a built-in text asset (final name ending
in a style/script extension) is written with every occurrence of the exact
directive `\x7b\x7b resource "<name>" \x7d\x7d` replaced; (b) likewise for
an additional text asset after reading its bytes; (c) `write_files` writes
exactly one entry per asset, in order, each produced by this per-asset
rule, and returns the name map unchanged; (d) the replacement of a
directive occurrence is the resolver applied to the captured name, with
surrounding bytes preserved; (e) the resolver prefixes the relative path
from the asset's final location back to the destination root and uses the
fingerprinted name from the map, falling back to the literal unresolved
name — without failing the build — when the name is not in the map. -/
theorem write_files_resource_directives :
    (∀ (afs : AssetFS) (hm : List (List Nat × List Nat))
      (data filename : List Nat),
      isTextAsset filename = true →
      writeOne afs hm (.builtin data filename) =
        .ok (filename, replaceResource (resolverFor hm filename) data)) ∧
    (∀ (afs : AssetFS) (hm : List (List Nat × List Nat)) (loc : String)
      (data filename : List Nat),
      isTextAsset filename = true → afs loc = some data →
      writeOne afs hm (.additional loc filename) =
        .ok (filename, replaceResource (resolverFor hm filename) data)) ∧
    (∀ (afs : AssetFS) (st : StaticFiles) ws hm',
      write_files afs st = .ok (ws, hm') →
      hm' = st.hash_map ∧ ws.length = st.static_files.length ∧
      ∀ (i : Nat) (sf : StaticFile), st.static_files[i]? = some sf →
        ∃ w, writeOne afs st.hash_map sf = .ok w ∧ ws[i]? = some w) ∧
    (∀ (resolver : List Nat → List Nat) (a name b : List Nat),
      (∀ x ∈ a, x ≠ 123) → name ≠ [] →
      (∀ x ∈ name, x ≠ 34 ∧ x ≠ 123) →
      replaceResource resolver (a ++ dirOpen ++ name ++ dirClose ++ b) =
        a ++ resolver name ++ replaceResource resolver b) ∧
    (∀ (hm : List (List Nat × List Nat)) (filename name : List Nat),
      (mapLookup hm name = none →
        resolverFor hm filename name = path_to_root filename ++ name) ∧
      ∀ fp, mapLookup hm name = some fp →
        resolverFor hm filename name = path_to_root filename ++ fp) := by
  refine ⟨?_, ?_, ?_, replaceResource_directive, ?_⟩
  · intro afs hm data filename ht
    simp only [writeOne, ht, if_true]
  · intro afs hm loc data filename ht hread
    simp only [writeOne, hread, ht, if_true]
  · intro afs st ws hm' h
    unfold write_files at h
    cases hgo : writeFilesGo afs st.hash_map st.static_files with
    | error e => rw [hgo] at h; cases h
    | ok ws0 =>
      rw [hgo] at h
      simp only [Except.ok.injEq, Prod.mk.injEq] at h
      obtain ⟨hws, hhm⟩ := h
      subst hws
      obtain ⟨hlen, hidx⟩ := writeFilesGo_index st.static_files afs
        st.hash_map ws0 hgo
      exact ⟨hhm.symm, hlen, hidx⟩
  · intro hm filename name
    constructor
    · intro hnone
      simp [resolverFor, hnone]
    · intro fp hsome
      simp [resolverFor, hsome]

/-- Name map for the C7 witness: the built-in `book.js` fingerprinted as in
the repository's own test. -/
def hm0 : List (List Nat × List Nat) :=
  [(bytes "book.js", bytes "book-e3b0c442.js")]

/-- A text asset body holding one resource directive. -/
def data0 : List Nat := bytes "var x;\x7b\x7b resource \"book.js\" \x7d\x7dvar y;"

/-- The catalog for the C7 witness: one built-in text asset under a
subdirectory. -/
def stW : StaticFiles := ⟨[.builtin data0 (bytes "sub/r.js")], hm0⟩

set_option maxRecDepth 16384 in
/-- Witness for C7: on the concrete catalog `stW`, the built-in text asset
is written with its directive resolved to `../book-e3b0c442.js` (one `../`
from its own location `sub/r.js` back to the root, then the fingerprinted
name), the full `write_files` run matches the per-index rule, an unresolved
name falls back to the literal name, and the directive equation holds at
the concrete occurrence inside `data0`. -/
theorem write_files_resource_directives_witness :
    writeOne afs0 hm0 (.builtin data0 (bytes "sub/r.js")) =
      .ok (bytes "sub/r.js",
        replaceResource (resolverFor hm0 (bytes "sub/r.js")) data0) ∧
    (∃ w, writeOne afs0 stW.hash_map (.builtin data0 (bytes "sub/r.js")) =
        .ok w ∧
      [(bytes "sub/r.js",
        replaceResource (resolverFor hm0 (bytes "sub/r.js")) data0)][0]? =
        some w) ∧
    resolverFor hm0 (bytes "sub/r.js") (bytes "missing.css") =
      path_to_root (bytes "sub/r.js") ++ bytes "missing.css" ∧
    replaceResource (resolverFor hm0 (bytes "sub/r.js")) data0 =
      bytes "var x;" ++ resolverFor hm0 (bytes "sub/r.js") (bytes "book.js") ++
        replaceResource (resolverFor hm0 (bytes "sub/r.js")) (bytes "var y;") ∧
    replaceResource (resolverFor hm0 (bytes "sub/r.js")) data0 =
      bytes "var x;../book-e3b0c442.jsvar y;" :=
  ⟨write_files_resource_directives.1 afs0 hm0 data0 (bytes "sub/r.js")
      (by decide),
   (write_files_resource_directives.2.2.1 afs0 stW
      [(bytes "sub/r.js",
        replaceResource (resolverFor hm0 (bytes "sub/r.js")) data0)]
      hm0 (by decide)).2.2 0 (.builtin data0 (bytes "sub/r.js")) (by decide),
   (write_files_resource_directives.2.2.2.2 hm0 (bytes "sub/r.js")
      (bytes "missing.css")).1 (by decide),
   write_files_resource_directives.2.2.2.1
      (resolverFor hm0 (bytes "sub/r.js")) (bytes "var x;") (bytes "book.js")
      (bytes "var y;") (by decide) (by decide) (by decide),
   by decide⟩

/-! ## `StaticFiles::new` and asset collection (C8) -/

/-- The theme bytes consumed by `StaticFiles::new` (the `Theme` struct
fields it reads). -/
structure Theme where
  js : List Nat
  general_css : List Nat
  chrome_css : List Nat
  print_css : List Nat
  variables_css : List Nat
  favicon_png : Option (List Nat)
  favicon_svg : Option (List Nat)
  highlight_css : List Nat
  tomorrow_night_css : List Nat
  ayu_highlight_css : List Nat
  highlight_js : List Nat
  clipboard_js : List Nat

/-- Modelled from the spec: the embedded byte constants of `theme` and
`playground_editor` (FONT_AWESOME, fonts, editor scripts) are not among the
provided sources; per the spec's design notes they are "an injected,
read-only data table provided to the pipeline at construction". Only their
fixed logical filenames matter here; the fonts' license/OpenSans tables
carry their own filenames. -/
structure BuiltinData where
  fontAwesomeCss : List Nat
  fontAwesomeEot : List Nat
  fontAwesomeSvg : List Nat
  fontAwesomeTtf : List Nat
  fontAwesomeWoff : List Nat
  fontAwesomeWoff2 : List Nat
  fontsCss : List Nat
  fontLicenses : List (String × List Nat)
  openSans : List (String × List Nat)
  sourceCodePro : String × List Nat
  editorJs : List Nat
  aceJs : List Nat
  modeRustJs : List Nat
  themeDawnJs : List Nat
  themeTomorrowNightJs : List Nat

/-- The `html_config.print` section. -/
structure PrintConfig where
  enable : Bool

/-- The `html_config.playground` section. -/
structure PlaygroundConfig where
  editable : Bool
  copy_js : Bool

/-- The `HtmlConfig` fields consumed by `StaticFiles::new`. -/
structure HtmlConfig where
  print : PrintConfig
  copy_fonts : Bool
  playground : PlaygroundConfig
  additional_css : List String
  additional_js : List String

/-- `StaticFiles::add_builtin` (static_files.rs lines 132-137): push a
built-in entry. -/
def add_builtin (st : StaticFiles) (filename : String) (data : List Nat) :
    StaticFiles :=
  { st with static_files := st.static_files ++ [.builtin data (bytes filename)] }

/-- The logical filename of a catalog entry. -/
def filenameOf : StaticFile → List Nat
  | .builtin _ filename => filename
  | .additional _ filename => filename

/-- `StaticFiles::new` (static_files.rs lines 37-131): push the built-in
assets in their fixed order (print/fonts/playground entries conditional on
the configuration), then one `Additional` entry per user-declared css/js
file, keyed by its relative path and located under `root`. The only
possible error in the source is a non-UTF-8 additional path, which cannot
arise for these string paths; no name-collision check of any kind is
performed. -/
def StaticFiles.new (bd : BuiltinData) (theme : Theme)
    (html_config : HtmlConfig) (root : String) : Except Unit StaticFiles :=
  let t : StaticFiles := ⟨[], []⟩
  let t := add_builtin t "book.js" theme.js
  let t := add_builtin t "css/general.css" theme.general_css
  let t := add_builtin t "css/chrome.css" theme.chrome_css
  let t := if html_config.print.enable then
      add_builtin t "css/print.css" theme.print_css
    else t
  let t := add_builtin t "css/variables.css" theme.variables_css
  let t := match theme.favicon_png with
    | some contents => add_builtin t "favicon.png" contents
    | none => t
  let t := match theme.favicon_svg with
    | some contents => add_builtin t "favicon.svg" contents
    | none => t
  let t := add_builtin t "highlight.css" theme.highlight_css
  let t := add_builtin t "tomorrow-night.css" theme.tomorrow_night_css
  let t := add_builtin t "ayu-highlight.css" theme.ayu_highlight_css
  let t := add_builtin t "highlight.js" theme.highlight_js
  let t := add_builtin t "clipboard.min.js" theme.clipboard_js
  let t := add_builtin t "FontAwesome/css/font-awesome.css" bd.fontAwesomeCss
  let t := add_builtin t "FontAwesome/fonts/fontawesome-webfont.eot"
    bd.fontAwesomeEot
  let t := add_builtin t "FontAwesome/fonts/fontawesome-webfont.svg"
    bd.fontAwesomeSvg
  let t := add_builtin t "FontAwesome/fonts/fontawesome-webfont.ttf"
    bd.fontAwesomeTtf
  let t := add_builtin t "FontAwesome/fonts/fontawesome-webfont.woff"
    bd.fontAwesomeWoff
  let t := add_builtin t "FontAwesome/fonts/fontawesome-webfont.woff2"
    bd.fontAwesomeWoff2
  let t := add_builtin t "FontAwesome/fonts/FontAwesome.ttf" bd.fontAwesomeTtf
  let t := if html_config.copy_fonts then
      let t := add_builtin t "fonts/fonts.css" bd.fontsCss
      let t := bd.fontLicenses.foldl
        (fun t p => add_builtin t p.1 p.2) t
      let t := bd.openSans.foldl (fun t p => add_builtin t p.1 p.2) t
      add_builtin t bd.sourceCodePro.1 bd.sourceCodePro.2
    else t
  let t := if html_config.playground.editable && html_config.playground.copy_js
    then
      let t := add_builtin t "editor.js" bd.editorJs
      let t := add_builtin t "ace.js" bd.aceJs
      let t := add_builtin t "mode-rust.js" bd.modeRustJs
      let t := add_builtin t "theme-dawn.js" bd.themeDawnJs
      add_builtin t "theme-tomorrow_night.js" bd.themeTomorrowNightJs
    else t
  let extra : List StaticFile :=
    (html_config.additional_css ++ html_config.additional_js).map
      (fun f => .additional (joinPath root f) (bytes f))
  .ok ⟨t.static_files ++ extra, t.hash_map⟩

/-- An empty theme for the C8 counterexample. -/
def theme0 : Theme :=
  ⟨[], [], [], [], [], none, none, [], [], [], [], []⟩

/-- Empty injected builtin data for the C8 counterexample. -/
def bd0 : BuiltinData :=
  ⟨[], [], [], [], [], [], [], [], [], ("", []), [], [], [], [], []⟩

/-- A configuration declaring an additional stylesheet whose logical name
collides with the always-present built-in `css/general.css`. -/
def cfgDup : HtmlConfig :=
  ⟨⟨false⟩, false, ⟨false, false⟩, ["css/general.css"], []⟩

/-- C8 counterexample: with `cfgDup`, collection succeeds (returns `ok`,
not a configuration error) and the resulting catalog holds TWO entries
whose final logical name is `css/general.css` — the built-in and the
user-declared one — so a collision is neither detected nor surfaced. -/
theorem asset_name_collision_not_detected :
    (match StaticFiles.new bd0 theme0 cfgDup "root" with
      | .ok st => some ((st.static_files.filter
          (fun sf => filenameOf sf = bytes "css/general.css")).length)
      | .error _ => none) = some 2 := by decide

set_option maxHeartbeats 1000000 in
/-- C8 amended: asset collection performs no collision check: for every
injected data table, theme contents and root, collecting with a
user-declared additional asset named like the built-in `css/general.css`
returns `ok` and keeps both entries in the catalog (the constructor's only
error case is a non-UTF-8 path). -/
theorem asset_collection_keeps_duplicates (bd : BuiltinData) (js general_css
    chrome_css print_css variables_css highlight_css tomorrow_night_css
    ayu_highlight_css highlight_js clipboard_js : List Nat) (root : String) :
    (match StaticFiles.new bd
        ⟨js, general_css, chrome_css, print_css, variables_css, none, none,
         highlight_css, tomorrow_night_css, ayu_highlight_css, highlight_js,
         clipboard_js⟩ cfgDup root with
      | .ok st => some ((st.static_files.filter
          (fun sf => filenameOf sf = bytes "css/general.css")).length)
      | .error _ => none) = some 2 := by
  rfl

/-- Witness for the amended C8, at the concrete empty theme and data. -/
theorem asset_collection_keeps_duplicates_witness :
    (match StaticFiles.new bd0
        ⟨[], [], [], [], [], none, none, [], [], [], [], []⟩ cfgDup "root" with
      | .ok st => some ((st.static_files.filter
          (fun sf => filenameOf sf = bytes "css/general.css")).length)
      | .error _ => none) = some 2 :=
  asset_collection_keeps_duplicates bd0 [] [] [] [] [] [] [] [] [] [] "root"

end MdBook
